import Mathlib

/-!
Shallow embedding of the leaderboard backend's aggregation core
(`src/backend/src/services/*.py`) and proofs about its projectors.

Conventions of the embedding:
* Python `dict`s keyed by strings become association lists
  `List (String × α)` in insertion order; `dget?`, `dset`, `dupd` mirror
  `d.get(k)`, `d[k] = v` and in-place mutation of `d[k]`.  Python dicts
  never hold a key twice, so update functions touch the first occurrence.
* Python `int` becomes `ℤ`; `float` becomes `ℚ` (the services only add,
  divide and round; the claims checked here are far from any
  binary-rounding tie, so the rational idealisation is exact for them).
* A JSON field that may be missing becomes `Option`; `none` plays the
  role of an absent key, so `x.get("f", d)` becomes `(x.f).getD d`.
  The one place where the code distinguishes an absent key from an
  explicit `null` (`model_dump` emits `None` for an unset `breakdown`)
  is the per-day `breakdown` field, embedded as `JVal`.
* Fallible code returns `Except String α`; an uncaught Python exception
  is an `.error` carrying the exception rendered as text.
-/

/-- Python `d.get(k)` on an association list: first entry with the key. -/
def dget? {α : Type} : List (String × α) → String → Option α
  | [], _ => none
  | (a, b) :: t, k => if a = k then some b else dget? t k

/-- Python `d[k] = v`: overwrite the entry in place, else append. -/
def dset {α : Type} : List (String × α) → String → α → List (String × α)
  | [], k, v => [(k, v)]
  | (a, b) :: t, k, v => if a = k then (a, v) :: t else (a, b) :: dset t k v

/-- In-place mutation of the value stored under `k` (no-op when absent;
the services only mutate keys they have just inserted). -/
def dupd {α : Type} : List (String × α) → String → (α → α) → List (String × α)
  | [], _, _ => []
  | (a, b) :: t, k, f => if a = k then (a, f b) :: t else (a, b) :: dupd t k f

theorem dget?_dset {α : Type} (d : List (String × α)) (k : String) (v : α) (q : String) :
    dget? (dset d k v) q = if q = k then some v else dget? d q := by
  induction d with
  | nil =>
    by_cases h : q = k
    · simp [dset, dget?, h]
    · have h' : ¬k = q := fun hh => h hh.symm
      simp [dset, dget?, h, h']
  | cons p t ih =>
    obtain ⟨a, b⟩ := p
    by_cases hak : a = k
    · subst hak
      by_cases hq : a = q
      · simp [dset, dget?, hq]
      · have hq' : ¬q = a := fun hh => hq hh.symm
        simp [dset, dget?, hq, hq']
    · by_cases haq : a = q
      · have hqk : ¬q = k := fun hh => hak (haq.trans hh)
        simp [dset, dget?, hak, haq, hqk]
      · simp [dset, dget?, hak, haq, ih]

theorem dget?_dupd {α : Type} (d : List (String × α)) (k : String) (f : α → α) (q : String) :
    dget? (dupd d k f) q = if q = k then (dget? d q).map f else dget? d q := by
  induction d with
  | nil =>
    by_cases h : q = k <;> simp [dupd, dget?, h]
  | cons p t ih =>
    obtain ⟨a, b⟩ := p
    by_cases hak : a = k
    · subst hak
      by_cases hq : a = q
      · simp [dupd, dget?, hq]
      · have hq' : ¬q = a := fun hh => hq hh.symm
        simp [dupd, dget?, hq, hq']
    · by_cases haq : a = q
      · have hqk : ¬q = k := fun hh => hak (haq.trans hh)
        simp [dupd, dget?, hak, haq, hqk]
      · simp [dupd, dget?, hak, haq, ih]

theorem keys_dupd {α : Type} (d : List (String × α)) (k : String) (f : α → α) :
    (dupd d k f).map Prod.fst = d.map Prod.fst := by
  induction d with
  | nil => rfl
  | cons p t ih =>
    obtain ⟨a, b⟩ := p
    by_cases hak : a = k <;> simp [dupd, hak, ih]

theorem keys_dset_of_mem {α : Type} :
    ∀ (d : List (String × α)) (k : String) (v : α), k ∈ d.map Prod.fst →
      (dset d k v).map Prod.fst = d.map Prod.fst
  | [], k, v, h => by simp at h
  | (a, b) :: t, k, v, h => by
    by_cases hak : a = k
    · simp [dset, hak]
    · have hk' : k ∈ t.map Prod.fst := by
        have h' : k = a ∨ ∃ x, (k, x) ∈ t := by simpa using h
        rcases h' with h1 | ⟨x, hx⟩
        · exact absurd h1.symm hak
        · exact List.mem_map.mpr ⟨(k, x), hx, rfl⟩
      simp [dset, hak, keys_dset_of_mem t k v hk']

theorem keys_dset_of_not_mem {α : Type} :
    ∀ (d : List (String × α)) (k : String) (v : α), k ∉ d.map Prod.fst →
      (dset d k v).map Prod.fst = d.map Prod.fst ++ [k]
  | [], _, _, _ => rfl
  | (a, b) :: t, k, v, h => by
    have h1 : ¬k = a := fun hh => h (by simp [hh])
    have h2 : k ∉ t.map Prod.fst := fun hh => h (by simp [hh])
    have h3 : ¬a = k := fun hh => h1 hh.symm
    simp [dset, h3, keys_dset_of_not_mem t k v h2]

/-- `dget?` misses exactly the keys outside the key list. -/
theorem dget?_eq_none_iff {α : Type} :
    ∀ (d : List (String × α)) (q : String), dget? d q = none ↔ q ∉ d.map Prod.fst
  | [], q => by simp [dget?]
  | (a, b) :: t, q => by
    by_cases hq : a = q
    · simp [dget?, hq]
    · have hq' : ¬q = a := fun hh => hq hh.symm
      simp [dget?, hq, hq', dget?_eq_none_iff t q]

/-- Two association lists with the same key sequence and the same
`dget?` view are equal, provided the keys repeat in neither. -/
theorem assoc_ext {α : Type} :
    ∀ (d e : List (String × α)), d.map Prod.fst = e.map Prod.fst →
      (d.map Prod.fst).Nodup → (∀ q, dget? d q = dget? e q) → d = e
  | [], [], _, _, _ => rfl
  | [], (_, _) :: _, hk, _, _ => by simp at hk
  | (_, _) :: _, [], hk, _, _ => by simp at hk
  | (a, u) :: d, (b, v) :: e, hk, hnd, hget => by
    simp only [List.map_cons, List.cons.injEq] at hk
    obtain ⟨rfl, hk⟩ := hk
    have h1 : u = v := by
      have := hget a
      simpa [dget?] using this
    subst h1
    have hd : d = e := by
      refine assoc_ext d e hk (List.nodup_cons.mp hnd).2 (fun q => ?_)
      by_cases hq : q = a
      · subst hq
        have hout : q ∉ d.map Prod.fst := (List.nodup_cons.mp hnd).1
        rw [(dget?_eq_none_iff d q).mpr hout, (dget?_eq_none_iff e q).mpr (hk ▸ hout)]
      · have hq' : ¬a = q := fun hh => hq hh.symm
        have := hget q
        simpa [dget?, hq'] using this
    rw [hd]

/-- Truthiness of an optional string (`if key_alias:`): present and
non-empty. -/
def truthyOpt (o : Option String) : Option String :=
  match o with
  | some a => if a = "" then none else some a
  | none => none

/-- Round half to even, as Python `round` does on an exact value. -/
def roundHalfEven (q : ℚ) : ℤ :=
  let f : ℤ := ⌊q⌋
  let r : ℚ := q - f
  if r < 1/2 then f
  else if 1/2 < r then f + 1
  else if 2 ∣ f then f else f + 1

/-- Python `round(q, n)` on an exact rational value. -/
def pyRound (n : ℕ) (q : ℚ) : ℚ :=
  (roundHalfEven (q * 10 ^ n) : ℚ) / 10 ^ n

/-- `s.split(": ", 1)[1]`: everything after the first `": "`, or the
`IndexError` case (`none`) when the separator never occurs. -/
def splitAfterColonSpace : List Char → Option (List Char)
  | [] => none
  | ':' :: ' ' :: rest => some rest
  | _ :: rest => splitAfterColonSpace rest

/-- `f"Error fetching …: {str(e).split(': ', 1)[1]}"`: re-wrap an upstream
error message, keeping only its cause; an upstream message without the
separator makes the subscript itself raise `IndexError`. -/
def wrapFetchErr (pre : String) (e : String) : String :=
  match splitAfterColonSpace e.data with
  | some cause => pre ++ String.mk cause
  | none => "IndexError: list index out of range"

/-- `AttributeError` raised by calling `.get`/`.items` on `None`. -/
def attrErrNone : String := "AttributeError: NoneType object has no attribute get"

/-! ## Data model (the JSON dict produced by `model_dump(mode="json")`) -/

/-- One `SpendMetrics` record at dict level; every counter may be absent
(plain-dict test inputs omit keys; `model_dump` writes them all). -/
structure MetricsDict where
  spend : Option ℚ := none
  prompt_tokens : Option ℤ := none
  completion_tokens : Option ℤ := none
  cache_read_input_tokens : Option ℤ := none
  cache_creation_input_tokens : Option ℤ := none
  total_tokens : Option ℤ := none
  successful_requests : Option ℤ := none
  failed_requests : Option ℤ := none
  api_requests : Option ℤ := none
  deriving DecidableEq

/-- `metadata` dict: the one field the services read. -/
structure MetaDict where
  key_alias : Option String := none
  deriving DecidableEq

/-- `KeyMetricWithMetadata`: value of an `api_key_breakdown` or `api_keys`
entry. -/
structure KeyMetricWithMetadata where
  metrics : Option MetricsDict := none
  metadata : Option MetaDict := none
  deriving DecidableEq

/-- `MetricWithMetadata`: value of an `entities` / `model_groups` /
`models` entry. -/
structure MetricWithMetadata where
  metrics : Option MetricsDict := none
  metadata : Option MetaDict := none
  api_key_breakdown : Option (List (String × KeyMetricWithMetadata)) := none
  deriving DecidableEq

/-- `BreakdownMetrics` at dict level.  The Pydantic model carries both a
`models` and a `model_groups` map; the services read them in different
places. -/
structure BreakdownDict where
  entities : Option (List (String × MetricWithMetadata)) := none
  model_groups : Option (List (String × MetricWithMetadata)) := none
  models : Option (List (String × MetricWithMetadata)) := none
  api_keys : Option (List (String × KeyMetricWithMetadata)) := none
  deriving DecidableEq

/-- A JSON field that the code may see as a missing key, an explicit
`null`, or a value — `entry.get("breakdown", {})` returns the default,
`None`, or the dict respectively. -/
inductive JVal (α : Type) where
  | absent
  | null
  | val (a : α)
  deriving DecidableEq

/-- One element of `results`: a day's entry. -/
structure DayEntry where
  date : Option String := none
  metrics : Option MetricsDict := none
  breakdown : JVal BreakdownDict := .absent
  deriving DecidableEq

/-- `SpendAnalyticsPaginatedResponse` restricted to what the services
read. -/
structure SpendResponse where
  results : List DayEntry
  deriving DecidableEq

/-- One team as returned by `/team/list`. -/
structure Team where
  team_id : String
  team_alias : Option String := none
  deriving DecidableEq

/-! ## TeamService -/

/-- `team.team_alias or team.team_id`: Python `or` falls through on the
empty string too. -/
def aliasOrId (t : Team) : String :=
  match t.team_alias with
  | some a => if a = "" then t.team_id else a
  | none => t.team_id

/-- `TeamService.get_team_name`: the cached `_team_id_to_name` lookup with
the id itself as fallback. -/
def getTeamName (teams : List Team) (tid : String) : String :=
  match teams.find? (fun t => t.team_id = tid) with
  | some t => aliasOrId t
  | none => tid

/-! ## SuccessRateService -/

/-- Per-team accumulator of the success-rate fold. -/
structure SRCounters where
  total_requests : ℤ
  successful_requests : ℤ
  failed_requests : ℤ
  deriving DecidableEq

/-- Output row of the success-rate service. -/
structure SRRow where
  name : String
  total_requests : ℤ
  successful_requests : ℤ
  failed_requests : ℤ
  success_rate : ℚ
  deriving DecidableEq

/-- The `team_metrics` dict comprehension: one zeroed entry per resolved
team name (duplicate names collapse onto one entry). -/
def srInit (teams : List Team) : List (String × SRCounters) :=
  teams.foldl (fun d t => dset d (getTeamName teams t.team_id) ⟨0, 0, 0⟩) []

/-- Inner loop body: add one day's metrics of one requested team into the
accumulator (an absent entity contributes the defaults, i.e. zero). -/
def srTeamStep (teams : List Team) (entities : List (String × MetricWithMetadata))
    (tm : List (String × SRCounters)) (t : Team) : List (String × SRCounters) :=
  let team_name := getTeamName teams t.team_id
  let entity := (dget? entities t.team_id).getD {}
  let metrics := entity.metrics.getD {}
  dupd tm team_name (fun c =>
    { total_requests := c.total_requests + metrics.api_requests.getD 0
      successful_requests := c.successful_requests + metrics.successful_requests.getD 0
      failed_requests := c.failed_requests + metrics.failed_requests.getD 0 })

/-- One day of the success-rate fold.  `entry.get("breakdown", {})`
returns `None` for an explicit JSON null, and the following
`.get("entities", {})` then raises. -/
def srDayStep (teams : List Team) (tm : List (String × SRCounters)) (entry : DayEntry) :
    Except String (List (String × SRCounters)) :=
  match entry.breakdown with
  | .null => .error attrErrNone
  | .absent => .ok (teams.foldl (srTeamStep teams []) tm)
  | .val b => .ok (teams.foldl (srTeamStep teams (b.entities.getD [])) tm)

/-- `success_rate = successful / total * 100` guarded by `total > 0`. -/
def srRate (successful total : ℤ) : ℚ :=
  if total > 0 then (successful : ℚ) / (total : ℚ) * 100 else 0

/-- Format one summary row from the folded counters. -/
def srRow (name : String) (c : SRCounters) : SRRow :=
  { name := name
    total_requests := c.total_requests
    successful_requests := c.successful_requests
    failed_requests := c.failed_requests
    success_rate := pyRound 2 (srRate c.successful_requests c.total_requests) }

/-- `SuccessRateService.fetch_team_success_rate_summary`, after the
upstream fetch has been performed (its result is passed in). -/
def fetch_team_success_rate_summary (teams : List Team)
    (fetched : Except String SpendResponse) : Except String (List SRRow) :=
  match fetched with
  | .error e => .error (wrapFetchErr "Error fetching team token usage: " e)
  | .ok data =>
    (data.results.foldlM (srDayStep teams) (srInit teams)).map
      (fun tm => tm.map (fun p => srRow p.1 p.2))

/-! ## TokenAggregationService -/

/-- One `models` list element of the aggregated breakdown. -/
structure ModelEntry where
  model_name : String
  total_tokens : ℤ
  prompt_tokens : ℤ
  completion_tokens : ℤ
  deriving DecidableEq

/-- One `api_keys` list element of the aggregated breakdown.  The
`key_alias` key is only put into the dict when the alias is truthy, so
`none` stands for an absent key. -/
structure KeyEntry where
  api_key : String
  key_alias : Option String := none
  models : List ModelEntry
  deriving DecidableEq

/-- One value of the `team_data` dict: running total plus the breakdown
(`breakdown.api_keys` is the only field of the nested dict). -/
structure TeamTotal where
  total_tokens : ℤ
  api_keys : List KeyEntry
  deriving DecidableEq

/-- The model record written for one key under one model group: the
key's own metrics inside that group's `api_key_breakdown`. -/
def mkKeyModel (mname : String) (kmd : KeyMetricWithMetadata) : ModelEntry :=
  let key_metrics := kmd.metrics.getD {}
  { model_name := mname,
    total_tokens := key_metrics.total_tokens.getD 0,
    prompt_tokens := key_metrics.prompt_tokens.getD 0,
    completion_tokens := key_metrics.completion_tokens.getD 0 }

/-- Build the model list recorded for one key on one day: scan the
top-level model groups in order and keep those whose
`api_key_breakdown` mentions the key. -/
def modelsForKey (mgs : List (String × MetricWithMetadata)) (k : String) : List ModelEntry :=
  mgs.filterMap (fun p => (dget? (p.2.api_key_breakdown.getD []) k).map (mkKeyModel p.1))

/-- The `api_key_models` dict of `_extract_breakdown`: initialised with
an empty list per key of the team's entity-level breakdown, then filled
model group by model group.  (The source iterates a `set` of the keys,
whose order is unspecified; dict keys are unique, so we keep their
original order.) -/
def apiKeyModels (entity_api_keys : List String)
    (mgs : List (String × MetricWithMetadata)) : List (String × List ModelEntry) :=
  let d0 := entity_api_keys.foldl (fun d k => dset d k []) []
  mgs.foldl (fun d p =>
    entity_api_keys.foldl (fun d k =>
      match dget? (p.2.api_key_breakdown.getD []) k with
      | some kmd => dupd d k (fun l => l ++ [mkKeyModel p.1 kmd])
      | none => d) d) d0

/-- The alias recorded for a key in the day's top-level `api_keys` map. -/
def topLevelAlias (tlb : BreakdownDict) (k : String) : Option String :=
  (((dget? (tlb.api_keys.getD []) k).getD {}).metadata.getD {}).key_alias

/-- Final `api_keys` entry of `_extract_breakdown` for one key: its model
list when non-empty, else the synthetic `"All Models"` fallback built
from the entity-level key metrics. -/
def extractKeyEntry (entity : MetricWithMetadata) (tlb : BreakdownDict)
    (k : String) (models : List ModelEntry) : KeyEntry :=
  let key_alias := truthyOpt (topLevelAlias tlb k)
  if models.isEmpty then
    let entity_key_data := (dget? (entity.api_key_breakdown.getD []) k).getD {}
    let ms := entity_key_data.metrics.getD {}
    let fallback : ModelEntry :=
      { model_name := "All Models",
        total_tokens := ms.total_tokens.getD 0,
        prompt_tokens := ms.prompt_tokens.getD 0,
        completion_tokens := ms.completion_tokens.getD 0 }
    { api_key := k, key_alias := key_alias, models := [fallback] }
  else
    { api_key := k, key_alias := key_alias, models := models }

/-- `TokenAggregationService._extract_breakdown`. -/
def extract_breakdown (entity : MetricWithMetadata) (tlb : BreakdownDict) :
    List KeyEntry :=
  let entity_api_keys := (entity.api_key_breakdown.getD []).map Prod.fst
  (apiKeyModels entity_api_keys (tlb.model_groups.getD [])).foldl
    (fun bd p => bd ++ [extractKeyEntry entity tlb p.1 p.2]) []

/-- The `model_name` keys of a model list, in order. -/
def modelNames (ms : List ModelEntry) : List String := ms.map (fun e => e.model_name)

/-- The `api_key` keys of a breakdown, in order. -/
def keyNames (bd : List KeyEntry) : List String := bd.map (fun e => e.api_key)

/-- Add one day's model record onto the accumulated one (the three
counters sum independently). -/
def addModelInto (t s : ModelEntry) : ModelEntry :=
  { t with
    total_tokens := t.total_tokens + s.total_tokens
    prompt_tokens := t.prompt_tokens + s.prompt_tokens
    completion_tokens := t.completion_tokens + s.completion_tokens }

/-- Model-level part of `_merge_breakdown`: source models matching an
existing name (unique in any state the service builds — `existing_models`
is a Python dict over the list) are summed in place, the rest are
appended in source order. -/
def merge_models (target source : List ModelEntry) : List ModelEntry :=
  let names := modelNames target
  target.map (fun t =>
      source.foldl (fun t s => if s.model_name = t.model_name then addModelInto t s else t) t)
    ++ source.filter (fun s => decide (s.model_name ∉ names))

/-- Merge one source key entry into a running target entry when the keys
match (the models are merged; the alias of the target entry is never
touched). -/
def mergeKeyEntry (t s : KeyEntry) : KeyEntry :=
  if s.api_key = t.api_key then { t with models := merge_models t.models s.models } else t

/-- `TokenAggregationService._merge_breakdown` (functional form of the
in-place mutation): source keys already present are merged into the
matching entry, new keys are appended in source order. -/
def merge_breakdown (target source : List KeyEntry) : List KeyEntry :=
  let keys := keyNames target
  target.map (fun t => source.foldl mergeKeyEntry t)
    ++ source.filter (fun s => decide (s.api_key ∉ keys))

/-- The `team_data` dict comprehension: one zeroed record per resolved
team name. -/
def taInit (teams : List Team) : List (String × TeamTotal) :=
  teams.foldl (fun d t => dset d (getTeamName teams t.team_id) ⟨0, []⟩) []

/-- Body of the `entities.items()` loop: teams whose resolved name is a
key of `team_data` accumulate their tokens and breakdown there, other
entities are ignored. -/
def taEntityStep (teams : List Team) (tlb : BreakdownDict)
    (td : List (String × TeamTotal)) (p : String × MetricWithMetadata) :
    List (String × TeamTotal) :=
  let total_tokens := (p.2.metrics.getD {}).total_tokens.getD 0
  let team_name := getTeamName teams p.1
  if (dget? td team_name).isSome then
    dupd td team_name (fun tt =>
      { total_tokens := tt.total_tokens + total_tokens
        api_keys := merge_breakdown tt.api_keys (extract_breakdown p.2 tlb) })
  else td

/-- One day of the token-aggregation fold; a JSON-null `breakdown` makes
`top_level_breakdown.get("entities", {})` raise. -/
def taDayStep (teams : List Team) (td : List (String × TeamTotal)) (entry : DayEntry) :
    Except String (List (String × TeamTotal)) :=
  match entry.breakdown with
  | .null => .error attrErrNone
  | .absent => .ok (([] : List (String × MetricWithMetadata)).foldl (taEntityStep teams {}) td)
  | .val b => .ok ((b.entities.getD []).foldl (taEntityStep teams b) td)

/-- `TokenAggregationService.fetch_total_tokens_per_team`, after the
upstream fetch has been performed. -/
def fetch_total_tokens_per_team (teams : List Team)
    (fetched : Except String SpendResponse) : Except String (List (String × TeamTotal)) :=
  match fetched with
  | .error e => .error (wrapFetchErr "Error fetching team token usage: " e)
  | .ok data => data.results.foldlM (taDayStep teams) (taInit teams)

/-! ## CostEfficiencyService -/

/-- Inner accumulator of the cost-efficiency fold, one per
(team, model). -/
structure CEAcc where
  total_tokens : ℤ
  total_cost : ℚ
  deriving DecidableEq

/-- Output cell of the cost-efficiency service. -/
structure CECell where
  team : String
  model : String
  cost_per_1k_tokens : ℚ
  total_cost : ℚ
  total_tokens : ℤ
  deriving DecidableEq

/-- `team_model_data[team_name][model_name] += …` with creation of the
zero entry on first sight. -/
def ceInnerAdd (d : List (String × CEAcc)) (model : String) (tokens : ℤ) (spend : ℚ) :
    List (String × CEAcc) :=
  let d := if (dget? d model).isSome then d else dset d model ⟨0, 0⟩
  dupd d model (fun c => ⟨c.total_tokens + tokens, c.total_cost + spend⟩)

/-- One API key inside one model group: when the group's
`api_key_breakdown` mentions it, accumulate its tokens and spend under
(team, model). -/
def ceKeyStep (name mn : String) (akb : List (String × KeyMetricWithMetadata))
    (tmd : List (String × List (String × CEAcc))) (k : String) :
    List (String × List (String × CEAcc)) :=
  match dget? akb k with
  | some kmd =>
    let key_metrics := kmd.metrics.getD {}
    dupd tmd name
      (ceInnerAdd · mn (key_metrics.total_tokens.getD 0) (key_metrics.spend.getD 0))
  | none => tmd

/-- One model group: check every API key of the team's entity against
the group's `api_key_breakdown`. -/
def ceGroupStep (name : String) (entity : MetricWithMetadata)
    (tmd : List (String × List (String × CEAcc))) (p : String × MetricWithMetadata) :
    List (String × List (String × CEAcc)) :=
  ((entity.api_key_breakdown.getD []).map Prod.fst).foldl
    (ceKeyStep name p.1 (p.2.api_key_breakdown.getD [])) tmd

/-- Per-team body of the cost-efficiency day loop: ensure the team's
outer entry exists, then walk every model group. -/
def ceTeamStep (teams : List Team) (entities : List (String × MetricWithMetadata))
    (mgs : List (String × MetricWithMetadata))
    (tmd : List (String × List (String × CEAcc))) (t : Team) :
    List (String × List (String × CEAcc)) :=
  let team_name := getTeamName teams t.team_id
  let entity := (dget? entities t.team_id).getD {}
  let tmd := if (dget? tmd team_name).isSome then tmd else dset tmd team_name []
  mgs.foldl (ceGroupStep team_name entity) tmd

/-- One day of the cost-efficiency fold; a JSON-null `breakdown` makes
the `.get("entities", {})` call raise. -/
def ceDayStep (teams : List Team) (tmd : List (String × List (String × CEAcc)))
    (entry : DayEntry) : Except String (List (String × List (String × CEAcc))) :=
  match entry.breakdown with
  | .null => .error attrErrNone
  | .absent => .ok (teams.foldl (ceTeamStep teams [] []) tmd)
  | .val b => .ok (teams.foldl (ceTeamStep teams (b.entities.getD []) (b.model_groups.getD [])) tmd)

/-- Format one output cell from the folded (team, model) accumulator. -/
def ceCell (team model : String) (c : CEAcc) : CECell :=
  let cost_per_1k : ℚ :=
    if c.total_tokens > 0 then c.total_cost / (c.total_tokens : ℚ) * 1000 else 0
  { team := team
    model := model
    cost_per_1k_tokens := pyRound 4 cost_per_1k
    total_cost := pyRound 4 c.total_cost
    total_tokens := c.total_tokens }

/-- Flatten the nested dict into the result list, outer then inner
insertion order. -/
def ceBuildCells (tmd : List (String × List (String × CEAcc))) : List CECell :=
  tmd.foldl (fun cells q => q.2.foldl (fun cells p => cells ++ [ceCell q.1 p.1 p.2]) cells) []

/-- `CostEfficiencyService.fetch_cost_efficiency`, after the upstream
fetch has been performed.  Its wrapper message differs from the other
services. -/
def fetch_cost_efficiency (teams : List Team)
    (fetched : Except String SpendResponse) : Except String (List CECell) :=
  match fetched with
  | .error e => .error (wrapFetchErr "Error fetching team data: " e)
  | .ok data => (data.results.foldlM (ceDayStep teams) []).map ceBuildCells

/-! ## ModelUsageService -/

/-- One day of the model-usage fold.  The service reads the breakdown's
`models` map (not `model_groups`), mapping each name through the display
name service before accumulating. -/
def muDayStep (display : String → String) (totals : List (String × ℤ)) (entry : DayEntry) :
    Except String (List (String × ℤ)) :=
  match entry.breakdown with
  | .null => .error attrErrNone
  | .absent => .ok totals
  | .val b =>
    .ok ((b.models.getD []).foldl (fun totals p =>
      let display_name := display p.1
      let total_tokens := (p.2.metrics.getD {}).total_tokens.getD 0
      dset totals display_name ((dget? totals display_name).getD 0 + total_tokens)) totals)

/-- `sorted(..., key=lambda x: x[1], reverse=True)`: Python's sort is
stable, so ties keep their original relative order. -/
def pySortByTokensDesc (l : List (String × ℤ)) : List (String × ℤ) :=
  l.insertionSort (fun x y => x.2 ≥ y.2)

/-- `ModelUsageService.fetch_model_usage`, after the upstream fetch has
been performed.  The daily-activity collaborator does not wrap fetch
errors, so they propagate unchanged. -/
def fetch_model_usage (display : String → String)
    (fetched : Except String SpendResponse) : Except String (List (String × ℤ)) :=
  match fetched with
  | .error e => .error e
  | .ok data =>
    (data.results.foldlM (muDayStep display) []).map
      (fun totals => pySortByTokensDesc (totals.filter (fun p => decide (p.2 > 0))))

/-! ## TimeSeriesService -/

/-- One per-team element of a time-series row. -/
structure TSTeam where
  name : String
  tokens : ℤ
  total_requests : ℤ
  successful_requests : ℤ
  failed_requests : ℤ
  deriving DecidableEq

/-- One output row of the time-series service. -/
structure TSRow where
  date : Option String
  teams : List TSTeam
  deriving DecidableEq

/-- The per-team record of one day, read directly from
`entities[team].metrics` of that day alone. -/
def tsTeamEntry (teams : List Team) (entities : List (String × MetricWithMetadata))
    (t : Team) : TSTeam :=
  let entity := (dget? entities t.team_id).getD {}
  let m := entity.metrics.getD {}
  { name := getTeamName teams t.team_id
    tokens := m.total_tokens.getD 0
    total_requests := m.api_requests.getD 0
    successful_requests := m.successful_requests.getD 0
    failed_requests := m.failed_requests.getD 0 }

/-- One output row; `entry.get("breakdown") or {}` turns both an absent
and a null breakdown into the empty dict. -/
def tsRow (teams : List Team) (entry : DayEntry) : TSRow :=
  let breakdown := match entry.breakdown with
    | .val b => b
    | _ => {}
  let entities := breakdown.entities.getD []
  { date := entry.date, teams := teams.map (tsTeamEntry teams entities) }

/-- `TimeSeriesService.fetch_daily_timeseries_per_team`, after the
upstream fetch has been performed. -/
def fetch_daily_timeseries_per_team (teams : List Team)
    (fetched : Except String SpendResponse) : Except String (List TSRow) :=
  match fetched with
  | .error e => .error (wrapFetchErr "Error fetching team token usage: " e)
  | .ok data => .ok (data.results.foldl (fun acc entry => acc ++ [tsRow teams entry]) [])

/-! ## Observations on the aggregated breakdown

`Tok3` is the (total, prompt, completion) token triple accumulated for
one `(api_key, model_name)` pair; `mObs`/`kmObs` read the accumulated
triple out of a breakdown, summing over every matching entry (in the
states the service builds, keys and model names never repeat, so this
is the value of the single matching entry, or `0` when there is
none). -/

abbrev Tok3 := ℤ × ℤ × ℤ

/-- The three token counters of a model entry, as one triple. -/
def ModelEntry.triple (e : ModelEntry) : Tok3 :=
  (e.total_tokens, e.prompt_tokens, e.completion_tokens)

/-- Accumulated triple of one model name inside a key's model list. -/
def mObs (ms : List ModelEntry) (m : String) : Tok3 :=
  (ms.map (fun e => if e.model_name = m then e.triple else 0)).sum

/-- Accumulated triple of one `(api_key, model_name)` pair inside a
breakdown. -/
def kmObs (bd : List KeyEntry) (k m : String) : Tok3 :=
  (bd.map (fun e => if e.api_key = k then mObs e.models m else 0)).sum

/-- Well-formedness that every state reachable by the service enjoys:
keys are unique, and model names are unique within each key. -/
def WFbd (bd : List KeyEntry) : Prop :=
  (keyNames bd).Nodup ∧ ∀ e ∈ bd, (modelNames e.models).Nodup

theorem mObs_nil (m : String) : mObs [] m = 0 := rfl

theorem mObs_cons (e : ModelEntry) (ms : List ModelEntry) (m : String) :
    mObs (e :: ms) m = (if e.model_name = m then e.triple else 0) + mObs ms m := by
  simp [mObs]

theorem mObs_append (a b : List ModelEntry) (m : String) :
    mObs (a ++ b) m = mObs a m + mObs b m := by
  simp [mObs]

theorem mObs_eq_zero_of_not_mem (ms : List ModelEntry) (m : String)
    (h : m ∉ modelNames ms) : mObs ms m = 0 := by
  induction ms with
  | nil => rfl
  | cons e t ih =>
    have h1 : ¬e.model_name = m := by
      intro hh
      exact h (by simp [modelNames, hh])
    have h2 : m ∉ modelNames t := fun hh => h (by simp [modelNames] at hh ⊢; exact .inr hh)
    rw [mObs_cons, if_neg h1, ih h2, zero_add]

theorem addModelInto_triple (t s : ModelEntry) :
    (addModelInto t s).triple = t.triple + s.triple := rfl

theorem addModelInto_name (t s : ModelEntry) :
    (addModelInto t s).model_name = t.model_name := rfl

/-- The in-entry fold of `merge_models` keeps the entry's name. -/
theorem mmFold_name (source : List ModelEntry) : ∀ t : ModelEntry,
    (source.foldl (fun t s => if s.model_name = t.model_name then addModelInto t s else t)
      t).model_name = t.model_name := by
  induction source with
  | nil => intro t; rfl
  | cons s ss ih =>
    intro t
    by_cases h : s.model_name = t.model_name
    · simp only [List.foldl_cons, if_pos h]
      rw [ih (addModelInto t s), addModelInto_name]
    · simp only [List.foldl_cons, if_neg h]
      exact ih t

/-- The in-entry fold of `merge_models` adds every matching source
model onto the entry. -/
theorem mmFold_triple (source : List ModelEntry) : ∀ t : ModelEntry,
    (source.foldl (fun t s => if s.model_name = t.model_name then addModelInto t s else t)
      t).triple = t.triple + mObs source t.model_name := by
  induction source with
  | nil => intro t; simp [mObs_nil]
  | cons s ss ih =>
    intro t
    by_cases h : s.model_name = t.model_name
    · simp only [List.foldl_cons, if_pos h]
      rw [ih (addModelInto t s), addModelInto_triple, addModelInto_name,
        mObs_cons, if_pos h, add_assoc]
    · simp only [List.foldl_cons, if_neg h]
      rw [ih t, mObs_cons, if_neg h, zero_add]

theorem mObs_map_mmFold (source : List ModelEntry) (m : String) :
    ∀ target : List ModelEntry, (modelNames target).Nodup →
      mObs (target.map (fun t =>
          source.foldl (fun t s => if s.model_name = t.model_name then addModelInto t s else t) t)) m
        = mObs target m + (if m ∈ modelNames target then mObs source m else 0) := by
  intro target
  induction target with
  | nil => intro _; simp [mObs_nil, modelNames]
  | cons t ts ih =>
    intro hnd
    have hnd' : (modelNames ts).Nodup := (List.nodup_cons.mp hnd).2
    have hout : t.model_name ∉ modelNames ts := (List.nodup_cons.mp hnd).1
    rw [List.map_cons, mObs_cons, mObs_cons, mmFold_name, ih hnd']
    by_cases h : t.model_name = m
    · subst h
      have hm : t.model_name ∈ modelNames (t :: ts) := by simp [modelNames]
      rw [if_pos rfl, if_pos rfl, if_pos hm, if_neg hout, mmFold_triple,
        mObs_eq_zero_of_not_mem ts t.model_name hout]
      abel
    · have hm : (m ∈ modelNames (t :: ts)) ↔ (m ∈ modelNames ts) := by
        simp [modelNames]
        intro hh
        exact absurd hh.symm h
      rw [if_neg h, if_neg h]
      by_cases h2 : m ∈ modelNames ts
      · rw [if_pos h2, if_pos (hm.mpr h2)]
        abel
      · rw [if_neg h2, if_neg (fun hh => h2 (hm.mp hh))]
        abel

theorem mObs_filter_new (names : List String) (m : String) :
    ∀ source : List ModelEntry,
      mObs (source.filter (fun s => decide (s.model_name ∉ names))) m
        = if m ∈ names then 0 else mObs source m := by
  intro source
  induction source with
  | nil => by_cases h : m ∈ names <;> simp [mObs_nil, h]
  | cons s ss ih =>
    by_cases hmem : s.model_name ∈ names
    · have hc : ¬(decide (s.model_name ∉ names) = true) := by simp [hmem]
      rw [List.filter_cons, if_neg hc, ih]
      by_cases h : m ∈ names
      · simp [h]
      · have hne : ¬s.model_name = m := fun hh => h (hh ▸ hmem)
        rw [if_neg h, if_neg h, mObs_cons, if_neg hne, zero_add]
    · have hc : decide (s.model_name ∉ names) = true := by simp [hmem]
      rw [List.filter_cons, if_pos hc]
      rw [mObs_cons, ih]
      by_cases h : m ∈ names
      · have hne : ¬s.model_name = m := fun hh => hmem (hh ▸ h)
        rw [if_pos h, if_pos h, if_neg hne, zero_add]
      · rw [if_neg h, if_neg h, mObs_cons]

/-- Merging model lists adds the accumulated triples pointwise. -/
theorem mObs_merge_models (t s : List ModelEntry) (m : String)
    (hnd : (modelNames t).Nodup) :
    mObs (merge_models t s) m = mObs t m + mObs s m := by
  unfold merge_models
  rw [mObs_append, mObs_map_mmFold s m t hnd, mObs_filter_new (modelNames t) m s]
  by_cases h : m ∈ modelNames t
  · rw [if_pos h, if_pos h, add_zero]
  · rw [if_neg h, if_neg h, add_zero]

theorem modelNames_merge_models (t s : List ModelEntry) :
    modelNames (merge_models t s)
      = modelNames t ++ modelNames (s.filter (fun x => decide (x.model_name ∉ modelNames t))) := by
  unfold merge_models modelNames
  simp [mmFold_name]

theorem nodup_merge_models (t s : List ModelEntry)
    (ht : (modelNames t).Nodup) (hs : (modelNames s).Nodup) :
    (modelNames (merge_models t s)).Nodup := by
  rw [modelNames_merge_models]
  refine List.Nodup.append ht ?_ ?_
  · have hsub : List.Sublist
        ((s.filter (fun x => decide (x.model_name ∉ modelNames t))).map (fun e => e.model_name))
        (s.map (fun e => e.model_name)) :=
      (List.filter_sublist s).map _
    exact hs.sublist hsub
  · intro a ha hb
    simp only [modelNames, List.mem_map] at hb
    obtain ⟨e, he, rfl⟩ := hb
    have hx : e.model_name ∉ modelNames t := by
      have h2 := (List.mem_filter.mp he).2
      simp only [modelNames, List.mem_map] at ha ⊢
      simpa using h2
    exact hx ha

theorem kmObs_nil (k m : String) : kmObs [] k m = 0 := rfl

theorem kmObs_cons (e : KeyEntry) (bd : List KeyEntry) (k m : String) :
    kmObs (e :: bd) k m = (if e.api_key = k then mObs e.models m else 0) + kmObs bd k m := by
  simp [kmObs]

theorem kmObs_append (a b : List KeyEntry) (k m : String) :
    kmObs (a ++ b) k m = kmObs a k m + kmObs b k m := by
  simp [kmObs]

theorem kmObs_eq_zero_of_not_mem (bd : List KeyEntry) (k m : String)
    (h : k ∉ keyNames bd) : kmObs bd k m = 0 := by
  induction bd with
  | nil => rfl
  | cons e t ih =>
    have h1 : ¬e.api_key = k := by
      intro hh
      exact h (by simp [keyNames, hh])
    have h2 : k ∉ keyNames t := fun hh => h (by simp [keyNames] at hh ⊢; exact .inr hh)
    rw [kmObs_cons, if_neg h1, ih h2, zero_add]

theorem kbFold_key (source : List KeyEntry) : ∀ t : KeyEntry,
    (source.foldl mergeKeyEntry t).api_key = t.api_key := by
  induction source with
  | nil => intro t; rfl
  | cons s ss ih =>
    intro t
    by_cases h : s.api_key = t.api_key <;>
      simp only [List.foldl_cons, mergeKeyEntry, if_pos, if_neg, h, ite_true, ite_false] <;>
      exact ih _

theorem kbFold_alias (source : List KeyEntry) : ∀ t : KeyEntry,
    (source.foldl mergeKeyEntry t).key_alias = t.key_alias := by
  induction source with
  | nil => intro t; rfl
  | cons s ss ih =>
    intro t
    by_cases h : s.api_key = t.api_key <;>
      simp only [List.foldl_cons, mergeKeyEntry, h, ite_true, ite_false] <;>
      exact ih _

theorem kbFold_nodup (source : List KeyEntry)
    (hs : ∀ x ∈ source, (modelNames x.models).Nodup) : ∀ t : KeyEntry,
    (modelNames t.models).Nodup → (modelNames (source.foldl mergeKeyEntry t).models).Nodup := by
  induction source with
  | nil => intro t h; exact h
  | cons s ss ih =>
    intro t ht
    have hs' : ∀ x ∈ ss, (modelNames x.models).Nodup := fun x hx => hs x (by simp [hx])
    by_cases h : s.api_key = t.api_key
    · simp only [List.foldl_cons, mergeKeyEntry, h, ite_true]
      exact ih hs' _ (nodup_merge_models t.models s.models ht (hs s (by simp)))
    · simp only [List.foldl_cons, mergeKeyEntry, h, ite_false]
      exact ih hs' t ht

theorem kbFold_mObs (source : List KeyEntry) (m : String)
    (hs : ∀ x ∈ source, (modelNames x.models).Nodup) : ∀ t : KeyEntry,
    (modelNames t.models).Nodup →
      mObs (source.foldl mergeKeyEntry t).models m
        = mObs t.models m + kmObs source t.api_key m := by
  induction source with
  | nil => intro t _; simp [kmObs_nil]
  | cons s ss ih =>
    intro t ht
    have hs' : ∀ x ∈ ss, (modelNames x.models).Nodup := fun x hx => hs x (by simp [hx])
    by_cases h : s.api_key = t.api_key
    · simp only [List.foldl_cons, mergeKeyEntry, h, ite_true]
      rw [ih hs' _ (nodup_merge_models t.models s.models ht (hs s (by simp)))]
      simp only [mObs_merge_models t.models s.models m ht]
      rw [kmObs_cons, if_pos h, add_assoc]
    · simp only [List.foldl_cons, mergeKeyEntry, h, ite_false]
      rw [ih hs' t ht, kmObs_cons, if_neg h, zero_add]

theorem kmObs_map_kbFold (source : List KeyEntry) (k m : String)
    (hs : ∀ x ∈ source, (modelNames x.models).Nodup) :
    ∀ target : List KeyEntry, WFbd target →
      kmObs (target.map (fun t => source.foldl mergeKeyEntry t)) k m
        = kmObs target k m + (if k ∈ keyNames target then kmObs source k m else 0) := by
  intro target
  induction target with
  | nil => intro _; simp [kmObs_nil, keyNames]
  | cons t ts ih =>
    intro hwf
    have hknd : (keyNames (t :: ts)).Nodup := hwf.1
    have hwf' : WFbd ts := ⟨(List.nodup_cons.mp hknd).2, fun e he => hwf.2 e (by simp [he])⟩
    have hout : t.api_key ∉ keyNames ts := (List.nodup_cons.mp hknd).1
    have htm : (modelNames t.models).Nodup := hwf.2 t (by simp)
    rw [List.map_cons, kmObs_cons, kmObs_cons, kbFold_key, ih hwf']
    by_cases h : t.api_key = k
    · subst h
      have hm : t.api_key ∈ keyNames (t :: ts) := by simp [keyNames]
      rw [if_pos rfl, if_pos rfl, if_pos hm, if_neg hout,
        kbFold_mObs source m hs t htm,
        kmObs_eq_zero_of_not_mem ts t.api_key m hout]
      abel
    · have hm : (k ∈ keyNames (t :: ts)) ↔ (k ∈ keyNames ts) := by
        simp [keyNames]
        intro hh
        exact absurd hh.symm h
      rw [if_neg h, if_neg h]
      by_cases h2 : k ∈ keyNames ts
      · rw [if_pos h2, if_pos (hm.mpr h2)]
        abel
      · rw [if_neg h2, if_neg (fun hh => h2 (hm.mp hh))]
        abel

theorem kmObs_filter_new (keys : List String) (k m : String) :
    ∀ source : List KeyEntry,
      kmObs (source.filter (fun s => decide (s.api_key ∉ keys))) k m
        = if k ∈ keys then 0 else kmObs source k m := by
  intro source
  induction source with
  | nil => by_cases h : k ∈ keys <;> simp [kmObs_nil, h]
  | cons s ss ih =>
    by_cases hmem : s.api_key ∈ keys
    · have hc : ¬(decide (s.api_key ∉ keys) = true) := by simp [hmem]
      rw [List.filter_cons, if_neg hc, ih]
      by_cases h : k ∈ keys
      · simp [h]
      · have hne : ¬s.api_key = k := fun hh => h (hh ▸ hmem)
        rw [if_neg h, if_neg h, kmObs_cons, if_neg hne, zero_add]
    · have hc : decide (s.api_key ∉ keys) = true := by simp [hmem]
      rw [List.filter_cons, if_pos hc]
      rw [kmObs_cons, ih]
      by_cases h : k ∈ keys
      · have hne : ¬s.api_key = k := fun hh => hmem (hh ▸ h)
        rw [if_pos h, if_pos h, if_neg hne, zero_add]
      · rw [if_neg h, if_neg h, kmObs_cons]

/-- Merging two breakdowns adds the accumulated triple of every
`(api_key, model)` pair. -/
theorem kmObs_merge_breakdown (t s : List KeyEntry) (k m : String)
    (ht : WFbd t) (hs : WFbd s) :
    kmObs (merge_breakdown t s) k m = kmObs t k m + kmObs s k m := by
  unfold merge_breakdown
  rw [kmObs_append, kmObs_map_kbFold s k m (fun x hx => hs.2 x hx) t ht,
    kmObs_filter_new (keyNames t) k m s]
  by_cases h : k ∈ keyNames t
  · rw [if_pos h, if_pos h, add_zero]
  · rw [if_neg h, if_neg h, add_zero]

theorem keyNames_merge_breakdown (t s : List KeyEntry) :
    keyNames (merge_breakdown t s)
      = keyNames t ++ keyNames (s.filter (fun x => decide (x.api_key ∉ keyNames t))) := by
  unfold merge_breakdown keyNames
  simp [kbFold_key]

/-- Merging preserves well-formedness. -/
theorem WFbd_merge (t s : List KeyEntry) (ht : WFbd t) (hs : WFbd s) :
    WFbd (merge_breakdown t s) := by
  constructor
  · rw [keyNames_merge_breakdown]
    refine List.Nodup.append ht.1 ?_ ?_
    · have hsub : List.Sublist
          ((s.filter (fun x => decide (x.api_key ∉ keyNames t))).map (fun e => e.api_key))
          (s.map (fun e => e.api_key)) :=
        (List.filter_sublist s).map _
      exact hs.1.sublist hsub
    · intro a ha hb
      simp only [keyNames, List.mem_map] at hb
      obtain ⟨e, he, rfl⟩ := hb
      have hx : e.api_key ∉ keyNames t := by
        have h2 := (List.mem_filter.mp he).2
        simp only [keyNames, List.mem_map] at ha ⊢
        simpa using h2
      exact hx ha
  · intro e he
    unfold merge_breakdown at he
    rcases List.mem_append.mp he with h1 | h1
    · obtain ⟨t0, ht0, rfl⟩ := List.mem_map.mp h1
      exact kbFold_nodup s (fun x hx => hs.2 x hx) t0 (ht.2 t0 ht0)
    · exact hs.2 e (List.mem_of_mem_filter h1)

/-- The alias stored for key `k` in a breakdown (`none` when the key has
no entry; `some a` gives the entry's optional alias field). -/
def aliasObs (bd : List KeyEntry) (k : String) : Option (Option String) :=
  (bd.find? (fun e => e.api_key == k)).map (fun e => e.key_alias)

theorem find?_append_of_some {α : Type} (p : α → Bool) {x : α} :
    ∀ {a : List α} (b : List α), a.find? p = some x → (a ++ b).find? p = some x := by
  intro a
  induction a with
  | nil => intro b h; simp [List.find?] at h
  | cons y ys ih =>
    intro b h
    by_cases hp : p y = true
    · rw [List.find?_cons_of_pos _ hp] at h
      rw [List.cons_append, List.find?_cons_of_pos _ hp]
      exact h
    · rw [List.find?_cons_of_neg _ hp] at h
      rw [List.cons_append, List.find?_cons_of_neg _ hp]
      exact ih b h

theorem find?_append_of_none {α : Type} (p : α → Bool) :
    ∀ {a : List α} (b : List α), a.find? p = none → (a ++ b).find? p = b.find? p := by
  intro a
  induction a with
  | nil => intro b _; simp
  | cons y ys ih =>
    intro b h
    by_cases hp : p y = true
    · rw [List.find?_cons_of_pos _ hp] at h
      simp at h
    · rw [List.find?_cons_of_neg _ hp] at h
      rw [List.cons_append, List.find?_cons_of_neg _ hp]
      exact ih b h

theorem find?_filter_compat {α : Type} (p q : α → Bool) (hpq : ∀ x, p x = true → q x = true) :
    ∀ l : List α, (l.filter q).find? p = l.find? p := by
  intro l
  induction l with
  | nil => simp
  | cons x xs ih =>
    by_cases hq : q x = true
    · rw [List.filter_cons, if_pos hq]
      by_cases hp : p x = true
      · rw [List.find?_cons_of_pos _ hp, List.find?_cons_of_pos _ hp]
      · rw [List.find?_cons_of_neg _ hp, List.find?_cons_of_neg _ hp]
        exact ih
    · rw [List.filter_cons, if_neg hq]
      have hp : ¬p x = true := fun hh => hq (hpq x hh)
      rw [ih, List.find?_cons_of_neg _ hp]

theorem find?_map_kbFold (s : List KeyEntry) (k : String) :
    ∀ t : List KeyEntry,
      (t.map (fun e => s.foldl mergeKeyEntry e)).find? (fun e => e.api_key == k)
        = (t.find? (fun e => e.api_key == k)).map (fun e => s.foldl mergeKeyEntry e) := by
  intro t
  induction t with
  | nil => simp
  | cons e es ih =>
    have hkey : ((s.foldl mergeKeyEntry e).api_key == k) = (e.api_key == k) := by
      rw [kbFold_key]
    by_cases h : (e.api_key == k) = true
    · have h2 : List.find? (fun e => e.api_key == k) (e :: es) = some e :=
        List.find?_cons_of_pos _ h
      rw [List.map_cons, List.find?_cons_of_pos _ (by rw [hkey]; exact h), h2]
      rfl
    · have h2 : List.find? (fun e => e.api_key == k) (e :: es)
          = List.find? (fun e => e.api_key == k) es :=
        List.find?_cons_of_neg _ h
      rw [List.map_cons, List.find?_cons_of_neg _ (by rw [hkey]; exact h), h2]
      exact ih

/-- Merging never touches the alias of a key already present in the
target; a key new to the target brings along the alias of its first
source entry. -/
theorem aliasObs_merge_breakdown (t s : List KeyEntry) (k : String) :
    aliasObs (merge_breakdown t s) k
      = if k ∈ keyNames t then aliasObs t k else aliasObs s k := by
  unfold merge_breakdown aliasObs
  by_cases h : k ∈ keyNames t
  · have hsome : (t.find? (fun e => e.api_key == k)).isSome := by
      rw [List.find?_isSome]
      simp only [keyNames, List.mem_map] at h
      obtain ⟨e, he, rfl⟩ := h
      exact ⟨e, he, by simp⟩
    obtain ⟨e, he⟩ := Option.isSome_iff_exists.mp hsome
    have hm : (t.map (fun e => s.foldl mergeKeyEntry e)).find? (fun e => e.api_key == k)
        = some (s.foldl mergeKeyEntry e) := by
      rw [find?_map_kbFold, he]
      rfl
    rw [if_pos h, find?_append_of_some _ _ hm, he]
    simp [kbFold_alias]
  · have hnone : t.find? (fun e => e.api_key == k) = none := by
      rw [List.find?_eq_none]
      intro x hx hpx
      apply h
      simp only [keyNames, List.mem_map]
      exact ⟨x, hx, by simpa using hpx⟩
    have hm : (t.map (fun e => s.foldl mergeKeyEntry e)).find? (fun e => e.api_key == k)
        = none := by
      rw [find?_map_kbFold, hnone]
      rfl
    rw [if_neg h, find?_append_of_none _ _ hm, find?_filter_compat]
    intro x hpx
    have hxk : x.api_key = k := by simpa using hpx
    simp [hxk, h]

/-! ## Characterisation of `_extract_breakdown` -/

theorem dset_of_not_mem {α : Type} :
    ∀ (d : List (String × α)) (k : String) (z : α), k ∉ d.map Prod.fst →
      dset d k z = d ++ [(k, z)]
  | [], _, _, _ => rfl
  | (a, b) :: t, k, z, h => by
    have h1 : ¬a = k := fun hh => h (by simp [hh])
    have h2 : k ∉ t.map Prod.fst := fun hh => h (by simp [hh])
    simp [dset, h1, dset_of_not_mem t k z h2]

theorem foldl_dset_fresh {α : Type} (z : α) :
    ∀ (ks : List String) (d : List (String × α)), ks.Nodup →
      (∀ k ∈ ks, k ∉ d.map Prod.fst) →
      ks.foldl (fun d k => dset d k z) d = d ++ ks.map (fun k => (k, z))
  | [], d, _, _ => by simp
  | k :: kt, d, hnd, hfresh => by
    have h0 : k ∉ d.map Prod.fst := hfresh k (by simp)
    have hset : dset d k z = d ++ [(k, z)] := dset_of_not_mem d k z h0
    have hfresh' : ∀ q ∈ kt, q ∉ (d ++ [(k, z)]).map Prod.fst := by
      intro q hq
      simp only [List.map_append, List.mem_append]
      rintro (h1 | h1)
      · exact hfresh q (by simp [hq]) h1
      · simp at h1
        subst h1
        exact (List.nodup_cons.mp hnd).1 hq
    calc (k :: kt).foldl (fun d k => dset d k z) d
        = kt.foldl (fun d k => dset d k z) (d ++ [(k, z)]) := by rw [List.foldl_cons, hset]
      _ = (d ++ [(k, z)]) ++ kt.map (fun k => (k, z)) :=
          foldl_dset_fresh z kt (d ++ [(k, z)]) (List.nodup_cons.mp hnd).2 hfresh'
      _ = d ++ (k :: kt).map (fun k => (k, z)) := by simp

theorem dget?_const_map {α : Type} (z : α) :
    ∀ (ks : List String) (q : String),
      dget? (ks.map (fun k => (k, z))) q = if q ∈ ks then some z else none
  | [], q => by simp [dget?]
  | k :: kt, q => by
    by_cases h : k = q
    · simp [dget?, h]
    · have h' : ¬q = k := fun hh => h hh.symm
      simp [dget?, h, h', dget?_const_map z kt q]

/-- Keys of `api_key_models` are never touched after the initial dict
comprehension. -/
theorem keys_akmInner (p : String × MetricWithMetadata) :
    ∀ (ks : List String) (d : List (String × List ModelEntry)),
      (ks.foldl (fun d k =>
        match dget? (p.2.api_key_breakdown.getD []) k with
        | some kmd => dupd d k (fun l => l ++ [mkKeyModel p.1 kmd])
        | none => d) d).map Prod.fst = d.map Prod.fst
  | [], _ => rfl
  | k :: kt, d => by
    rw [List.foldl_cons]
    cases hx : dget? (p.2.api_key_breakdown.getD []) k with
    | none =>
      simp only [hx]
      exact keys_akmInner p kt d
    | some kmd =>
      simp only [hx]
      rw [keys_akmInner p kt _, keys_dupd]

theorem dget?_akmInner (p : String × MetricWithMetadata) (q : String) :
    ∀ (ks : List String), ks.Nodup → ∀ (d : List (String × List ModelEntry)),
      dget? (ks.foldl (fun d k =>
        match dget? (p.2.api_key_breakdown.getD []) k with
        | some kmd => dupd d k (fun l => l ++ [mkKeyModel p.1 kmd])
        | none => d) d) q
      = if q ∈ ks then
          (dget? d q).map (fun l =>
            l ++ ((dget? (p.2.api_key_breakdown.getD []) q).map (mkKeyModel p.1)).toList)
        else dget? d q
  | [], _, d => by simp
  | k :: kt, hnd, d => by
    rw [List.foldl_cons]
    have hnd' := (List.nodup_cons.mp hnd).2
    have hout : k ∉ kt := (List.nodup_cons.mp hnd).1
    by_cases hqk : q = k
    · subst hqk
      have hq : q ∈ q :: kt := by simp
      rw [if_pos hq]
      cases hx : dget? (p.2.api_key_breakdown.getD []) q with
      | none =>
        simp only [hx]
        rw [dget?_akmInner p q kt hnd' d, if_neg hout]
        simp
      | some kmd =>
        simp only [hx]
        rw [dget?_akmInner p q kt hnd' _, if_neg hout, dget?_dupd]
        simp
    · have hmem : (q ∈ k :: kt) ↔ (q ∈ kt) := by simp [hqk]
      cases hx : dget? (p.2.api_key_breakdown.getD []) k with
      | none =>
        simp only [hx]
        rw [dget?_akmInner p q kt hnd' d]
        by_cases h2 : q ∈ kt
        · rw [if_pos h2, if_pos (hmem.mpr h2)]
        · rw [if_neg h2, if_neg (fun hh => h2 (hmem.mp hh))]
      | some kmd =>
        simp only [hx]
        rw [dget?_akmInner p q kt hnd' _, dget?_dupd]
        rw [if_neg hqk]
        by_cases h2 : q ∈ kt
        · rw [if_pos h2, if_pos (hmem.mpr h2)]
        · rw [if_neg h2, if_neg (fun hh => h2 (hmem.mp hh))]

theorem modelsForKey_cons (p : String × MetricWithMetadata)
    (ps : List (String × MetricWithMetadata)) (k : String) :
    modelsForKey (p :: ps) k
      = ((dget? (p.2.api_key_breakdown.getD []) k).map (mkKeyModel p.1)).toList
        ++ modelsForKey ps k := by
  unfold modelsForKey
  rw [List.filterMap_cons]
  cases hx : dget? (p.2.api_key_breakdown.getD []) k <;> simp [hx]

theorem dget?_akmOuter (q : String) (ks : List String) (hnd : ks.Nodup) :
    ∀ (mgs : List (String × MetricWithMetadata)) (d : List (String × List ModelEntry)),
      dget? (mgs.foldl (fun d p =>
        ks.foldl (fun d k =>
          match dget? (p.2.api_key_breakdown.getD []) k with
          | some kmd => dupd d k (fun l => l ++ [mkKeyModel p.1 kmd])
          | none => d) d) d) q
      = if q ∈ ks then (dget? d q).map (fun l => l ++ modelsForKey mgs q) else dget? d q
  | [], d => by
    by_cases h : q ∈ ks
    · simp [h, modelsForKey]
    · simp [h]
  | p :: ps, d => by
    rw [List.foldl_cons, dget?_akmOuter q ks hnd ps _, dget?_akmInner p q ks hnd d]
    by_cases h : q ∈ ks
    · rw [if_pos h, if_pos h, if_pos h, Option.map_map]
      rw [modelsForKey_cons]
      congr 1
      funext l
      simp [Function.comp, List.append_assoc]
    · rw [if_neg h, if_neg h, if_neg h]

/-- Keys of `api_key_models`: exactly the entity's key list. -/
theorem keys_apiKeyModels (ks : List String) (mgs : List (String × MetricWithMetadata))
    (hnd : ks.Nodup) : (apiKeyModels ks mgs).map Prod.fst = ks := by
  unfold apiKeyModels
  have hinit : ks.foldl (fun d k => dset d k ([] : List ModelEntry)) []
      = ks.map (fun k => (k, [])) := by
    simpa using foldl_dset_fresh ([] : List ModelEntry) ks [] hnd (by simp)
  rw [hinit]
  have : ∀ (mgs : List (String × MetricWithMetadata)) (d : List (String × List ModelEntry)),
      (mgs.foldl (fun d p =>
        ks.foldl (fun d k =>
          match dget? (p.2.api_key_breakdown.getD []) k with
          | some kmd => dupd d k (fun l => l ++ [mkKeyModel p.1 kmd])
          | none => d) d) d).map Prod.fst = d.map Prod.fst := by
    intro mgs
    induction mgs with
    | nil => intro d; rfl
    | cons p ps ih =>
      intro d
      rw [List.foldl_cons, ih, keys_akmInner]
  rw [this]
  rw [List.map_map]
  have hcomp : (Prod.fst ∘ fun k => (k, ([] : List ModelEntry))) = fun k : String => k := rfl
  rw [hcomp]
  exact List.map_id ks

/-- Values of `api_key_models`: each key of the entity maps to its
in-order model list. -/
theorem dget?_apiKeyModels (ks : List String) (mgs : List (String × MetricWithMetadata))
    (hnd : ks.Nodup) (q : String) :
    dget? (apiKeyModels ks mgs) q = if q ∈ ks then some (modelsForKey mgs q) else none := by
  unfold apiKeyModels
  have hinit : ks.foldl (fun d k => dset d k ([] : List ModelEntry)) []
      = ks.map (fun k => (k, [])) := by
    simpa using foldl_dset_fresh ([] : List ModelEntry) ks [] hnd (by simp)
  rw [hinit, dget?_akmOuter q ks hnd mgs _, dget?_const_map]
  by_cases h : q ∈ ks
  · rw [if_pos h, if_pos h, if_pos h]
    simp
  · rw [if_neg h, if_neg h, if_neg h]

theorem dget?_graph_map {α : Type} (f : String → α) :
    ∀ (ks : List String) (q : String),
      dget? (ks.map (fun k => (k, f k))) q = if q ∈ ks then some (f q) else none
  | [], q => by simp [dget?]
  | k :: kt, q => by
    by_cases h : k = q
    · simp [dget?, h]
    · have h' : ¬q = k := fun hh => h hh.symm
      simp [dget?, h, h', dget?_graph_map f kt q]

theorem foldl_append_map {α β : Type} (h : α → β) :
    ∀ (l : List α) (acc : List β),
      l.foldl (fun acc p => acc ++ [h p]) acc = acc ++ l.map h
  | [], acc => by simp
  | p :: ps, acc => by
    rw [List.foldl_cons, foldl_append_map h ps (acc ++ [h p])]
    simp

/-- Pointwise description of `_extract_breakdown`: one entry per entity
key, carrying that key's in-order model list (or the fallback). -/
theorem extract_breakdown_eq (entity : MetricWithMetadata) (tlb : BreakdownDict)
    (hnd : ((entity.api_key_breakdown.getD []).map Prod.fst).Nodup) :
    extract_breakdown entity tlb
      = ((entity.api_key_breakdown.getD []).map Prod.fst).map (fun k =>
          extractKeyEntry entity tlb k (modelsForKey (tlb.model_groups.getD []) k)) := by
  unfold extract_breakdown
  rw [foldl_append_map]
  have hkeys := keys_apiKeyModels ((entity.api_key_breakdown.getD []).map Prod.fst)
    (tlb.model_groups.getD []) hnd
  have hassoc : apiKeyModels ((entity.api_key_breakdown.getD []).map Prod.fst)
      (tlb.model_groups.getD [])
      = ((entity.api_key_breakdown.getD []).map Prod.fst).map (fun k =>
          (k, modelsForKey (tlb.model_groups.getD []) k)) := by
    refine assoc_ext _ _ ?_ ?_ ?_
    · rw [hkeys]
      simp
    · rw [hkeys]
      exact hnd
    · intro q
      rw [dget?_apiKeyModels _ _ hnd q, dget?_graph_map]
  rw [hassoc]
  simp

theorem extractKeyEntry_key (entity : MetricWithMetadata) (tlb : BreakdownDict)
    (k : String) (ms : List ModelEntry) :
    (extractKeyEntry entity tlb k ms).api_key = k := by
  unfold extractKeyEntry
  by_cases h : ms.isEmpty <;> simp [h]

theorem extractKeyEntry_alias (entity : MetricWithMetadata) (tlb : BreakdownDict)
    (k : String) (ms : List ModelEntry) :
    (extractKeyEntry entity tlb k ms).key_alias = truthyOpt (topLevelAlias tlb k) := by
  unfold extractKeyEntry
  by_cases h : ms.isEmpty <;> simp [h]

theorem extractKeyEntry_models_nodup (entity : MetricWithMetadata) (tlb : BreakdownDict)
    (k : String) (ms : List ModelEntry) (hms : (modelNames ms).Nodup) :
    (modelNames (extractKeyEntry entity tlb k ms).models).Nodup := by
  unfold extractKeyEntry
  by_cases h : ms.isEmpty
  · simp [h, modelNames]
  · simpa [h] using hms

theorem modelNames_modelsForKey_sublist (k : String) :
    ∀ mgs : List (String × MetricWithMetadata),
      List.Sublist (modelNames (modelsForKey mgs k)) (mgs.map Prod.fst)
  | [] => by simp [modelsForKey, modelNames]
  | p :: ps => by
    rw [modelsForKey_cons]
    cases hx : dget? (p.2.api_key_breakdown.getD []) k with
    | none =>
      simp only [hx, Option.map_none, Option.toList, List.nil_append, List.map_cons]
      exact (modelNames_modelsForKey_sublist k ps).cons p.1
    | some kmd =>
      simp only [hx, Option.map_some, List.map_cons]
      show (modelNames (mkKeyModel p.1 kmd :: modelsForKey ps k)).Sublist
        (p.1 :: ps.map Prod.fst)
      have : modelNames (mkKeyModel p.1 kmd :: modelsForKey ps k)
          = p.1 :: modelNames (modelsForKey ps k) := by
        simp [modelNames, mkKeyModel]
      rw [this]
      exact (modelNames_modelsForKey_sublist k ps).cons₂ p.1

/-- Extraction always produces a well-formed breakdown (keys are the
entity's dict keys; model names per key follow the model-group dict). -/
theorem WFbd_extract (entity : MetricWithMetadata) (tlb : BreakdownDict)
    (hk : ((entity.api_key_breakdown.getD []).map Prod.fst).Nodup)
    (hm : ((tlb.model_groups.getD []).map Prod.fst).Nodup) :
    WFbd (extract_breakdown entity tlb) := by
  rw [extract_breakdown_eq entity tlb hk]
  constructor
  · unfold keyNames
    rw [List.map_map]
    have : ((fun e => e.api_key) ∘ fun k =>
        extractKeyEntry entity tlb k (modelsForKey (tlb.model_groups.getD []) k))
        = fun k : String => k := by
      funext k
      simp [extractKeyEntry_key]
    rw [this]
    simpa using hk
  · intro e he
    obtain ⟨k, hk2, rfl⟩ := List.mem_map.mp he
    refine extractKeyEntry_models_nodup entity tlb k _ ?_
    exact hm.sublist (modelNames_modelsForKey_sublist k (tlb.model_groups.getD []))

/-! ## Generic dict-building lemmas -/

theorem dget?_foldl_dset {α ι : Type} (f : ι → String) (z : α) (n : String) :
    ∀ (l : List ι) (d : List (String × α)),
      dget? (l.foldl (fun d t => dset d (f t) z) d) n
        = if n ∈ l.map f then some z else dget? d n
  | [], d => by simp
  | t :: ts, d => by
    rw [List.foldl_cons, dget?_foldl_dset f z n ts _]
    by_cases h : n ∈ ts.map f
    · rw [if_pos h, if_pos (by simp [h])]
    · rw [if_neg h, dget?_dset]
      by_cases h2 : n = f t
      · rw [if_pos h2, if_pos (by simp [h2])]
      · have hnot : n ∉ (t :: ts).map f := by
          simp only [List.map_cons, List.mem_cons]
          push_neg
          exact ⟨h2, h⟩
        rw [if_neg h2, if_neg hnot]

/-- The key sequence Python's dict building produces: first occurrences
in order, given the keys already seen. -/
def pyDictKeys : List String → List String → List String
  | [], _ => []
  | n :: ns, seen => if n ∈ seen then pyDictKeys ns seen else n :: pyDictKeys ns (seen ++ [n])

/-- First-occurrence sequence of a name list (the keys of a Python dict
comprehension over it). -/
def dedupFirst (names : List String) : List String := pyDictKeys names []

theorem keys_foldl_dset {α ι : Type} (f : ι → String) (z : α) :
    ∀ (l : List ι) (d : List (String × α)),
      (l.foldl (fun d t => dset d (f t) z) d).map Prod.fst
        = d.map Prod.fst ++ pyDictKeys (l.map f) (d.map Prod.fst)
  | [], d => by simp [pyDictKeys]
  | t :: ts, d => by
    rw [List.foldl_cons, keys_foldl_dset f z ts _, List.map_cons]
    by_cases h : f t ∈ d.map Prod.fst
    · rw [keys_dset_of_mem d (f t) z h]
      simp [pyDictKeys, h]
    · rw [keys_dset_of_not_mem d (f t) z h]
      simp [pyDictKeys, h]

theorem pyDictKeys_not_mem_seen :
    ∀ (ns seen : List String) (x : String), x ∈ pyDictKeys ns seen → x ∉ seen
  | [], _, x, h => by simp [pyDictKeys] at h
  | n :: ns, seen, x, h => by
    by_cases hn : n ∈ seen
    · rw [pyDictKeys, if_pos hn] at h
      exact pyDictKeys_not_mem_seen ns seen x h
    · rw [pyDictKeys, if_neg hn] at h
      rcases List.mem_cons.mp h with h1 | h1
      · exact h1 ▸ hn
      · have := pyDictKeys_not_mem_seen ns (seen ++ [n]) x h1
        intro hx
        exact this (by simp [hx])

theorem pyDictKeys_nodup : ∀ (ns seen : List String), (pyDictKeys ns seen).Nodup
  | [], _ => by simp [pyDictKeys]
  | n :: ns, seen => by
    by_cases hn : n ∈ seen
    · rw [pyDictKeys, if_pos hn]
      exact pyDictKeys_nodup ns seen
    · rw [pyDictKeys, if_neg hn]
      refine List.nodup_cons.mpr ⟨?_, pyDictKeys_nodup ns (seen ++ [n])⟩
      intro hmem
      have := pyDictKeys_not_mem_seen ns (seen ++ [n]) n hmem
      exact this (by simp)

/-! ## Success-rate fold lemmas -/

/-- The display name a team resolves to. -/
def rName (teams : List Team) (t : Team) : String := getTeamName teams t.team_id

/-- Add one (total, successful, failed) triple onto the accumulator. -/
def SRCounters.addT (c : SRCounters) (x : Tok3) : SRCounters :=
  { total_requests := c.total_requests + x.1
    successful_requests := c.successful_requests + x.2.1
    failed_requests := c.failed_requests + x.2.2 }

theorem SRCounters.addT_zero (c : SRCounters) : c.addT 0 = c := by
  cases c
  simp [SRCounters.addT]

theorem SRCounters.addT_addT (c : SRCounters) (x y : Tok3) :
    (c.addT x).addT y = c.addT (x + y) := by
  cases c
  simp [SRCounters.addT, Prod.fst_add, Prod.snd_add]
  omega

/-- One day's (api, successful, failed) triple of one team id, read from
the day's entities with all the `.get` defaults. -/
def entityTriple (entities : List (String × MetricWithMetadata)) (tid : String) : Tok3 :=
  let m := ((dget? entities tid).getD {}).metrics.getD {}
  (m.api_requests.getD 0, m.successful_requests.getD 0, m.failed_requests.getD 0)

/-- Contribution of one day's entities to the counters accumulated under
display name `n`, summed over the requested teams `ts`. -/
def srTeamsContrib (teams : List Team) (entities : List (String × MetricWithMetadata))
    (ts : List Team) (n : String) : Tok3 :=
  (ts.map (fun t => if rName teams t = n then entityTriple entities t.team_id else 0)).sum

/-- The entities dict a projector iterates for one day (`{}` both for an
absent breakdown and for an absent map). -/
def entitiesOf : JVal BreakdownDict → List (String × MetricWithMetadata)
  | .val b => b.entities.getD []
  | _ => []

/-- One day's contribution to the success-rate counters under name `n`. -/
def srDayContrib (teams : List Team) (e : DayEntry) (n : String) : Tok3 :=
  srTeamsContrib teams (entitiesOf e.breakdown) teams n

theorem srTeamStep_eq (teams : List Team) (es : List (String × MetricWithMetadata))
    (tm : List (String × SRCounters)) (t : Team) :
    srTeamStep teams es tm t
      = dupd tm (rName teams t) (fun c => c.addT (entityTriple es t.team_id)) := rfl

theorem srFold_teams (teams : List Team) (es : List (String × MetricWithMetadata))
    (n : String) :
    ∀ (ts : List Team) (tm : List (String × SRCounters)),
      dget? (ts.foldl (srTeamStep teams es) tm) n
        = (dget? tm n).map (fun c => c.addT (srTeamsContrib teams es ts n))
  | [], tm => by
    simp [srTeamsContrib]
    cases dget? tm n <;> simp [SRCounters.addT_zero]
  | t :: ts, tm => by
    rw [List.foldl_cons, srFold_teams teams es n ts _, srTeamStep_eq, dget?_dupd]
    have hcons : srTeamsContrib teams es (t :: ts) n
        = (if rName teams t = n then entityTriple es t.team_id else 0)
          + srTeamsContrib teams es ts n := by
      simp [srTeamsContrib]
    by_cases h : rName teams t = n
    · rw [if_pos h.symm, hcons, if_pos h, Option.map_map]
      cases dget? tm n <;> simp [Function.comp, SRCounters.addT_addT]
    · rw [if_neg (fun hh => h hh.symm), hcons, if_neg h, zero_add]

theorem keys_srFold_teams (teams : List Team) (es : List (String × MetricWithMetadata)) :
    ∀ (ts : List Team) (tm : List (String × SRCounters)),
      (ts.foldl (srTeamStep teams es) tm).map Prod.fst = tm.map Prod.fst
  | [], tm => rfl
  | t :: ts, tm => by
    rw [List.foldl_cons, keys_srFold_teams teams es ts _, srTeamStep_eq, keys_dupd]

theorem srFold_days (teams : List Team) (n : String) :
    ∀ (days : List DayEntry) (tm res : List (String × SRCounters)),
      days.foldlM (srDayStep teams) tm = .ok res →
        dget? res n
          = (dget? tm n).map (fun c =>
              c.addT ((days.map (fun e => srDayContrib teams e n)).sum))
  | [], tm, res, h => by
    simp only [List.foldlM_nil] at h
    have hres : tm = res := by
      simp only [pure, Except.pure, Except.ok.injEq] at h
      exact h
    subst hres
    simp only [List.map_nil, List.sum_nil]
    cases dget? tm n <;> simp [SRCounters.addT_zero]
  | e :: es, tm, res, h => by
    rw [List.foldlM_cons] at h
    cases hb : e.breakdown with
    | null =>
      rw [srDayStep, hb] at h
      simp only [Bind.bind, Except.bind] at h
      exact absurd h (by simp)
    | absent =>
      rw [srDayStep, hb] at h
      simp only [Bind.bind, Except.bind] at h
      have := srFold_days teams n es _ res h
      rw [this, srFold_teams teams [] n teams tm, Option.map_map]
      have hday : srDayContrib teams e n = srTeamsContrib teams [] teams n := by
        rw [srDayContrib, hb]
        rfl
      cases dget? tm n <;>
        simp [Function.comp, SRCounters.addT_addT, hday]
    | val b =>
      rw [srDayStep, hb] at h
      simp only [Bind.bind, Except.bind] at h
      have := srFold_days teams n es _ res h
      rw [this, srFold_teams teams (b.entities.getD []) n teams tm, Option.map_map]
      have hday : srDayContrib teams e n
          = srTeamsContrib teams (b.entities.getD []) teams n := by
        rw [srDayContrib, hb]
        rfl
      cases dget? tm n <;>
        simp [Function.comp, SRCounters.addT_addT, hday]

theorem keys_srFold_days (teams : List Team) :
    ∀ (days : List DayEntry) (tm res : List (String × SRCounters)),
      days.foldlM (srDayStep teams) tm = .ok res →
        res.map Prod.fst = tm.map Prod.fst
  | [], tm, res, h => by
    simp only [List.foldlM_nil] at h
    have hres : tm = res := by
      simp only [pure, Except.pure, Except.ok.injEq] at h
      exact h
    subst hres
    rfl
  | e :: es, tm, res, h => by
    rw [List.foldlM_cons] at h
    cases hb : e.breakdown with
    | null =>
      rw [srDayStep, hb] at h
      simp only [Bind.bind, Except.bind] at h
      exact absurd h (by simp)
    | absent =>
      rw [srDayStep, hb] at h
      simp only [Bind.bind, Except.bind] at h
      rw [keys_srFold_days teams es _ res h, keys_srFold_teams]
    | val b =>
      rw [srDayStep, hb] at h
      simp only [Bind.bind, Except.bind] at h
      rw [keys_srFold_days teams es _ res h, keys_srFold_teams]

/-! ## Token-aggregation fold lemmas -/

/-- The day-level `total_tokens` of one entity. -/
def entityTokens (ent : MetricWithMetadata) : ℤ := (ent.metrics.getD {}).total_tokens.getD 0

/-- Observation of one team's accumulated record: its token total and
the accumulated triple of one `(api_key, model)` pair. -/
def taObs (td : List (String × TeamTotal)) (n k m : String) : Option (ℤ × Tok3) :=
  (dget? td n).map (fun tt => (tt.total_tokens, kmObs tt.api_keys k m))

/-- Contribution of one entity of one day to the record under name `n`
and pair `(k, m)`. -/
def taEntityContrib (teams : List Team) (tlb : BreakdownDict)
    (p : String × MetricWithMetadata) (n k m : String) : ℤ × Tok3 :=
  if getTeamName teams p.1 = n
  then (entityTokens p.2, kmObs (extract_breakdown p.2 tlb) k m) else 0

/-- One day's contribution to the record under name `n` and pair
`(k, m)`. -/
def taDayContrib (teams : List Team) (e : DayEntry) (n k m : String) : ℤ × Tok3 :=
  match e.breakdown with
  | .val b => ((b.entities.getD []).map (fun p => taEntityContrib teams b p n k m)).sum
  | _ => 0

/-- Invariant of the `team_data` dict: every accumulated breakdown is
well-formed. -/
def TdInv (td : List (String × TeamTotal)) : Prop := ∀ p ∈ td, WFbd p.2.api_keys

/-- The dict-shape facts every value coming out of a Python dict
enjoys: the model-group names and each entity's key list hold no
duplicates. -/
def BdDictsWF (b : BreakdownDict) : Prop :=
  ((b.model_groups.getD []).map Prod.fst).Nodup ∧
    ∀ p ∈ b.entities.getD [], ((p.2.api_key_breakdown.getD []).map Prod.fst).Nodup

instance (b : BreakdownDict) : Decidable (BdDictsWF b) := by
  unfold BdDictsWF
  exact instDecidableAnd

/-- The breakdown dict a day exposes (empty if the field is absent). -/
def bdOf : JVal BreakdownDict → BreakdownDict
  | .val b => b
  | _ => {}

/-- A day a projector can fold without failing, produced by Python
dicts: no JSON-null breakdown, no duplicate dict keys. -/
def DayWF (e : DayEntry) : Prop := e.breakdown ≠ .null ∧ BdDictsWF (bdOf e.breakdown)

instance (e : DayEntry) : Decidable (DayWF e) := by
  unfold DayWF
  exact instDecidableAnd

theorem dget?_mem {α : Type} :
    ∀ (d : List (String × α)) (q : String) (v : α), dget? d q = some v → (q, v) ∈ d
  | [], q, v, h => by simp [dget?] at h
  | (a, b) :: t, q, v, h => by
    by_cases hq : a = q
    · rw [dget?, if_pos hq] at h
      cases h
      simp [hq]
    · rw [dget?, if_neg hq] at h
      exact List.mem_cons.mpr (.inr (dget?_mem t q v h))

theorem dupd_val_pred {α : Type} (P : α → Prop) :
    ∀ (d : List (String × α)) (k : String) (f : α → α),
      (∀ p ∈ d, P p.2) → (∀ v, P v → P (f v)) → ∀ p ∈ dupd d k f, P p.2
  | [], _, _, _, _, p, hp => by simp [dupd] at hp
  | (a, b) :: t, k, f, hall, hf, p, hp => by
    by_cases hak : a = k
    · rw [dupd, if_pos hak] at hp
      rcases List.mem_cons.mp hp with h1 | h1
      · subst h1
        exact hf b (hall (a, b) (by simp))
      · exact hall p (by simp [h1])
    · rw [dupd, if_neg hak] at hp
      rcases List.mem_cons.mp hp with h1 | h1
      · subst h1
        exact hall (a, b) (by simp)
      · exact dupd_val_pred P t k f (fun q hq => hall q (by simp [hq])) hf p h1

theorem taEntityStep_obs (teams : List Team) (tlb : BreakdownDict)
    (td : List (String × TeamTotal)) (p : String × MetricWithMetadata) (n k m : String)
    (hinv : TdInv td) (hwfE : WFbd (extract_breakdown p.2 tlb)) :
    taObs (taEntityStep teams tlb td p) n k m
      = (taObs td n k m).map (fun x => x + taEntityContrib teams tlb p n k m) := by
  unfold taEntityStep taObs taEntityContrib
  by_cases hp : (dget? td (getTeamName teams p.1)).isSome
  · rw [if_pos hp, dget?_dupd]
    by_cases hn : n = getTeamName teams p.1
    · rw [if_pos hn, if_pos hn.symm]
      cases htt : dget? td n with
      | none =>
        rw [hn] at htt
        rw [htt] at hp
        simp at hp
      | some tt =>
        have hwtt : WFbd tt.api_keys := hinv (n, tt) (dget?_mem td n tt htt)
        simp only [Option.map_some', Option.some.injEq]
        rw [kmObs_merge_breakdown _ _ k m hwtt hwfE]
        simp [entityTokens, Prod.ext_iff]
    · rw [if_neg hn, if_neg (fun hh => hn hh.symm)]
      cases dget? td n <;> simp
  · rw [if_neg hp]
    by_cases hn : n = getTeamName teams p.1
    · rw [hn]
      have : dget? td (getTeamName teams p.1) = none := by
        cases hx : dget? td (getTeamName teams p.1)
        · rfl
        · rw [hx] at hp
          simp at hp
      rw [this]
      simp
    · rw [if_neg (fun hh => hn hh.symm)]
      cases dget? td n <;> simp

theorem taEntityStep_inv (teams : List Team) (tlb : BreakdownDict)
    (td : List (String × TeamTotal)) (p : String × MetricWithMetadata)
    (hinv : TdInv td) (hwfE : WFbd (extract_breakdown p.2 tlb)) :
    TdInv (taEntityStep teams tlb td p) := by
  unfold taEntityStep TdInv
  unfold TdInv at hinv
  by_cases hp : (dget? td (getTeamName teams p.1)).isSome
  · rw [if_pos hp]
    refine dupd_val_pred (fun v => WFbd v.api_keys) td _ _ hinv ?_
    intro v hv
    exact WFbd_merge v.api_keys _ hv hwfE
  · rw [if_neg hp]
    exact hinv

theorem keys_taEntityStep (teams : List Team) (tlb : BreakdownDict)
    (td : List (String × TeamTotal)) (p : String × MetricWithMetadata) :
    (taEntityStep teams tlb td p).map Prod.fst = td.map Prod.fst := by
  unfold taEntityStep
  by_cases hp : (dget? td (getTeamName teams p.1)).isSome
  · rw [if_pos hp, keys_dupd]
  · rw [if_neg hp]

theorem taFold_entities_obs (teams : List Team) (tlb : BreakdownDict) (n k m : String) :
    ∀ (ents : List (String × MetricWithMetadata)) (td : List (String × TeamTotal)),
      TdInv td → (∀ p ∈ ents, WFbd (extract_breakdown p.2 tlb)) →
      taObs (ents.foldl (taEntityStep teams tlb) td) n k m
        = (taObs td n k m).map
            (fun x => x + (ents.map (fun p => taEntityContrib teams tlb p n k m)).sum)
  | [], td, _, _ => by
    simp only [List.foldl_nil, List.map_nil, List.sum_nil]
    cases taObs td n k m <;> simp
  | p :: ps, td, hinv, hwf => by
    rw [List.foldl_cons,
      taFold_entities_obs teams tlb n k m ps _
        (taEntityStep_inv teams tlb td p hinv (hwf p (by simp)))
        (fun q hq => hwf q (by simp [hq])),
      taEntityStep_obs teams tlb td p n k m hinv (hwf p (by simp))]
    cases taObs td n k m <;> simp [add_assoc]

theorem taFold_entities_inv (teams : List Team) (tlb : BreakdownDict) :
    ∀ (ents : List (String × MetricWithMetadata)) (td : List (String × TeamTotal)),
      TdInv td → (∀ p ∈ ents, WFbd (extract_breakdown p.2 tlb)) →
      TdInv (ents.foldl (taEntityStep teams tlb) td)
  | [], td, hinv, _ => hinv
  | p :: ps, td, hinv, hwf => by
    rw [List.foldl_cons]
    exact taFold_entities_inv teams tlb ps _
      (taEntityStep_inv teams tlb td p hinv (hwf p (by simp)))
      (fun q hq => hwf q (by simp [hq]))

theorem keys_taFold_entities (teams : List Team) (tlb : BreakdownDict) :
    ∀ (ents : List (String × MetricWithMetadata)) (td : List (String × TeamTotal)),
      (ents.foldl (taEntityStep teams tlb) td).map Prod.fst = td.map Prod.fst
  | [], _ => rfl
  | p :: ps, td => by
    rw [List.foldl_cons, keys_taFold_entities teams tlb ps _, keys_taEntityStep]

/-- A well-formed day's extracted breakdowns are all well-formed. -/
theorem dayWF_extract {e : DayEntry} {b : BreakdownDict} (hwf : DayWF e)
    (hb : e.breakdown = .val b) : ∀ p ∈ b.entities.getD [], WFbd (extract_breakdown p.2 b) := by
  intro p hp
  have hdict : BdDictsWF b := by
    have := hwf.2
    rw [hb] at this
    exact this
  exact WFbd_extract p.2 b (hdict.2 p hp) hdict.1

theorem taDayStep_obs (teams : List Team) (td : List (String × TeamTotal))
    (e : DayEntry) (n k m : String) (hinv : TdInv td) (hwf : DayWF e) :
    ∃ td2, taDayStep teams td e = .ok td2 ∧ TdInv td2 ∧
      td2.map Prod.fst = td.map Prod.fst ∧
      taObs td2 n k m = (taObs td n k m).map (fun x => x + taDayContrib teams e n k m) := by
  cases hb : e.breakdown with
  | null => exact absurd hb hwf.1
  | absent =>
    refine ⟨td, by rw [taDayStep, hb]; rfl, hinv, rfl, ?_⟩
    rw [taDayContrib, hb]
    cases taObs td n k m <;> simp
  | val b =>
    refine ⟨(b.entities.getD []).foldl (taEntityStep teams b) td, by rw [taDayStep, hb], ?_, ?_, ?_⟩
    · exact taFold_entities_inv teams b _ td hinv (dayWF_extract hwf hb)
    · exact keys_taFold_entities teams b _ td
    · rw [taFold_entities_obs teams b n k m _ td hinv (dayWF_extract hwf hb),
        taDayContrib, hb]

theorem taFold_days (teams : List Team) (n k m : String) :
    ∀ (days : List DayEntry) (td res : List (String × TeamTotal)),
      TdInv td → (∀ e ∈ days, DayWF e) →
      days.foldlM (taDayStep teams) td = .ok res →
        res.map Prod.fst = td.map Prod.fst ∧
        taObs res n k m
          = (taObs td n k m).map
              (fun x => x + (days.map (fun e => taDayContrib teams e n k m)).sum)
  | [], td, res, _, _, h => by
    simp only [List.foldlM_nil] at h
    have hres : td = res := by
      simp only [pure, Except.pure, Except.ok.injEq] at h
      exact h
    subst hres
    refine ⟨rfl, ?_⟩
    simp only [List.map_nil, List.sum_nil]
    cases taObs td n k m <;> simp
  | e :: es, td, res, hinv, hwf, h => by
    rw [List.foldlM_cons] at h
    obtain ⟨td2, hstep, hinv2, hkeys2, hobs2⟩ :=
      taDayStep_obs teams td e n k m hinv (hwf e (by simp))
    rw [hstep] at h
    simp only [Bind.bind, Except.bind] at h
    obtain ⟨hkeys, hobs⟩ :=
      taFold_days teams n k m es td2 res hinv2 (fun d hd => hwf d (by simp [hd])) h
    refine ⟨by rw [hkeys, hkeys2], ?_⟩
    rw [hobs, hobs2]
    cases taObs td n k m <;> simp [add_assoc]

/-! ## Init dict characterisations -/

theorem dset_val_pred {α : Type} (P : α → Prop) :
    ∀ (d : List (String × α)) (k : String) (z : α),
      (∀ p ∈ d, P p.2) → P z → ∀ p ∈ dset d k z, P p.2
  | [], _, _, _, hz, p, hp => by
    simp only [dset, List.mem_singleton] at hp
    subst hp
    exact hz
  | (a, b) :: t, k, z, hall, hz, p, hp => by
    by_cases hak : a = k
    · rw [dset, if_pos hak] at hp
      rcases List.mem_cons.mp hp with h1 | h1
      · subst h1
        exact hz
      · exact hall p (by simp [h1])
    · rw [dset, if_neg hak] at hp
      rcases List.mem_cons.mp hp with h1 | h1
      · subst h1
        exact hall (a, b) (by simp)
      · exact dset_val_pred P t k z (fun q hq => hall q (by simp [hq])) hz p h1

theorem foldl_dset_val_pred {α ι : Type} (P : α → Prop) (f : ι → String) (z : α) :
    ∀ (l : List ι) (d : List (String × α)),
      (∀ p ∈ d, P p.2) → P z → ∀ p ∈ l.foldl (fun d t => dset d (f t) z) d, P p.2
  | [], d, hall, _, p, hp => hall p hp
  | t :: ts, d, hall, hz, p, hp => by
    rw [List.foldl_cons] at hp
    exact foldl_dset_val_pred P f z ts _ (dset_val_pred P d (f t) z hall hz) hz p hp

theorem dget?_srInit (teams : List Team) (n : String) :
    dget? (srInit teams) n
      = if n ∈ teams.map (fun t => rName teams t) then some ⟨0, 0, 0⟩ else none := by
  unfold srInit
  exact dget?_foldl_dset (fun t => getTeamName teams t.team_id) (⟨0, 0, 0⟩ : SRCounters) n teams []

theorem keys_srInit (teams : List Team) :
    (srInit teams).map Prod.fst = dedupFirst (teams.map (fun t => rName teams t)) := by
  unfold srInit dedupFirst
  exact keys_foldl_dset (fun t => getTeamName teams t.team_id) (⟨0, 0, 0⟩ : SRCounters) teams []

theorem dget?_taInit (teams : List Team) (n : String) :
    dget? (taInit teams) n
      = if n ∈ teams.map (fun t => rName teams t) then some ⟨0, []⟩ else none := by
  unfold taInit
  exact dget?_foldl_dset (fun t => getTeamName teams t.team_id) (⟨0, []⟩ : TeamTotal) n teams []

theorem keys_taInit (teams : List Team) :
    (taInit teams).map Prod.fst = dedupFirst (teams.map (fun t => rName teams t)) := by
  unfold taInit dedupFirst
  exact keys_foldl_dset (fun t => getTeamName teams t.team_id) (⟨0, []⟩ : TeamTotal) teams []

theorem TdInv_taInit (teams : List Team) : TdInv (taInit teams) := by
  unfold TdInv taInit
  intro p hp
  refine foldl_dset_val_pred (fun v => WFbd v.api_keys)
    (fun t => getTeamName teams t.team_id) (⟨0, []⟩ : TeamTotal) teams [] (by simp) ?_ p hp
  exact ⟨List.nodup_nil, by simp⟩

/-- The success-rate fold never fails on null-free days. -/
theorem srFold_success (teams : List Team) :
    ∀ (days : List DayEntry) (tm : List (String × SRCounters)),
      (∀ e ∈ days, e.breakdown ≠ .null) →
      ∃ res, days.foldlM (srDayStep teams) tm = .ok res
  | [], tm, _ => ⟨tm, rfl⟩
  | e :: es, tm, hwf => by
    rw [List.foldlM_cons]
    cases hb : e.breakdown with
    | null => exact absurd hb (hwf e (by simp))
    | absent =>
      obtain ⟨res, hres⟩ :=
        srFold_success teams es (teams.foldl (srTeamStep teams []) tm)
          (fun d hd => hwf d (by simp [hd]))
      refine ⟨res, ?_⟩
      rw [srDayStep, hb]
      simpa only [Bind.bind, Except.bind] using hres
    | val b =>
      obtain ⟨res, hres⟩ :=
        srFold_success teams es (teams.foldl (srTeamStep teams (b.entities.getD [])) tm)
          (fun d hd => hwf d (by simp [hd]))
      refine ⟨res, ?_⟩
      rw [srDayStep, hb]
      simpa only [Bind.bind, Except.bind] using hres

/-- The token-aggregation fold never fails on null-free days. -/
theorem taFold_success (teams : List Team) :
    ∀ (days : List DayEntry) (td : List (String × TeamTotal)),
      (∀ e ∈ days, e.breakdown ≠ .null) →
      ∃ res, days.foldlM (taDayStep teams) td = .ok res
  | [], td, _ => ⟨td, rfl⟩
  | e :: es, td, hwf => by
    rw [List.foldlM_cons]
    cases hb : e.breakdown with
    | null => exact absurd hb (hwf e (by simp))
    | absent =>
      obtain ⟨res, hres⟩ :=
        taFold_success teams es (([] : List (String × MetricWithMetadata)).foldl
          (taEntityStep teams {}) td) (fun d hd => hwf d (by simp [hd]))
      refine ⟨res, ?_⟩
      rw [taDayStep, hb]
      simpa only [Bind.bind, Except.bind] using hres
    | val b =>
      obtain ⟨res, hres⟩ :=
        taFold_success teams es ((b.entities.getD []).foldl (taEntityStep teams b) td)
          (fun d hd => hwf d (by simp [hd]))
      refine ⟨res, ?_⟩
      rw [taDayStep, hb]
      simpa only [Bind.bind, Except.bind] using hres

/-! ## Cost-efficiency fold lemmas -/

/-- The (tokens, cost) pair of one inner accumulator. -/
def ceAccVal (c : CEAcc) : ℤ × ℚ := (c.total_tokens, c.total_cost)

/-- Accumulated (tokens, cost) of one (team name, model) pair (zero when
the pair has no entry). -/
def ceVal (tmd : List (String × List (String × CEAcc))) (n m : String) : ℤ × ℚ :=
  ceAccVal ((dget? ((dget? tmd n).getD []) m).getD ⟨0, 0⟩)

/-- The (tokens, spend) one API key contributes from one model group's
`api_key_breakdown` (zero when the key is not mentioned). -/
def ceKeyContrib (akb : List (String × KeyMetricWithMetadata)) (k : String) : ℤ × ℚ :=
  match dget? akb k with
  | some kmd => ((kmd.metrics.getD {}).total_tokens.getD 0, (kmd.metrics.getD {}).spend.getD 0)
  | none => 0

/-- What one team's entity contributes to one model group: the sum over
its API keys of their hits in the group. -/
def ceTeamModelContrib (entity : MetricWithMetadata) (p : String × MetricWithMetadata) : ℤ × ℚ :=
  (((entity.api_key_breakdown.getD []).map Prod.fst).map
    (fun k => ceKeyContrib (p.2.api_key_breakdown.getD []) k)).sum

/-- What one team's entity contributes to the accumulator of model `m`
across all model groups of the day. -/
def ceTeamContrib (entity : MetricWithMetadata) (mgs : List (String × MetricWithMetadata))
    (m : String) : ℤ × ℚ :=
  (mgs.map (fun p => if p.1 = m then ceTeamModelContrib entity p else 0)).sum

/-- One day's contribution to the (team name, model) accumulator. -/
def ceDayContrib (teams : List Team) (e : DayEntry) (n m : String) : ℤ × ℚ :=
  match e.breakdown with
  | .val b =>
    (teams.map (fun t => if rName teams t = n
      then ceTeamContrib ((dget? (b.entities.getD []) t.team_id).getD {}) (b.model_groups.getD []) m
      else 0)).sum
  | _ => 0

theorem ceInnerAdd_val (d : List (String × CEAcc)) (mn : String) (tok : ℤ) (sp : ℚ)
    (q : String) :
    ceAccVal ((dget? (ceInnerAdd d mn tok sp) q).getD ⟨0, 0⟩)
      = ceAccVal ((dget? d q).getD ⟨0, 0⟩) + (if mn = q then (tok, sp) else 0) := by
  unfold ceInnerAdd
  by_cases hp : (dget? d mn).isSome
  · rw [if_pos hp, dget?_dupd]
    by_cases hq : q = mn
    · subst hq
      rw [if_pos rfl, if_pos rfl]
      cases hx : dget? d q with
      | none =>
        rw [hx] at hp
        simp at hp
      | some c => simp [ceAccVal]
    · rw [if_neg hq, if_neg (fun hh => hq hh.symm), add_zero]
  · rw [if_neg hp, dget?_dupd]
    by_cases hq : q = mn
    · subst hq
      have hx : dget? d q = none := by
        cases hy : dget? d q
        · rfl
        · rw [hy] at hp
          simp at hp
      rw [if_pos rfl, if_pos rfl, dget?_dset, if_pos rfl, hx]
      simp [ceAccVal]
    · rw [if_neg hq, if_neg (fun hh => hq hh.symm), add_zero, dget?_dset, if_neg hq]

theorem keys_ceInnerAdd_nodup (d : List (String × CEAcc)) (mn : String) (tok : ℤ) (sp : ℚ)
    (hnd : (d.map Prod.fst).Nodup) : ((ceInnerAdd d mn tok sp).map Prod.fst).Nodup := by
  unfold ceInnerAdd
  by_cases hp : (dget? d mn).isSome
  · rw [if_pos hp, keys_dupd]
    exact hnd
  · rw [if_neg hp, keys_dupd]
    by_cases hmem : mn ∈ d.map Prod.fst
    · rw [keys_dset_of_mem d mn _ hmem]
      exact hnd
    · rw [keys_dset_of_not_mem d mn _ hmem]
      simp [List.nodup_append, hnd, hmem]

theorem keys_ceKeyStep (name mn : String) (akb : List (String × KeyMetricWithMetadata))
    (tmd : List (String × List (String × CEAcc))) (k : String) :
    (ceKeyStep name mn akb tmd k).map Prod.fst = tmd.map Prod.fst := by
  unfold ceKeyStep
  cases dget? akb k with
  | none => rfl
  | some kmd => exact keys_dupd tmd name _

theorem ceKeyStep_val (name mn : String) (akb : List (String × KeyMetricWithMetadata))
    (tmd : List (String × List (String × CEAcc))) (k : String) (n m : String)
    (hp : (dget? tmd name).isSome) :
    ceVal (ceKeyStep name mn akb tmd k) n m
      = ceVal tmd n m + (if name = n ∧ mn = m then ceKeyContrib akb k else 0) := by
  unfold ceKeyStep ceKeyContrib
  cases hx : dget? akb k with
  | none =>
    by_cases h : name = n ∧ mn = m <;> simp [h]
  | some kmd =>
    unfold ceVal
    rw [dget?_dupd]
    by_cases hn : n = name
    · subst hn
      rw [if_pos rfl]
      cases hy : dget? tmd n with
      | none =>
        rw [hy] at hp
        simp at hp
      | some inner =>
        simp only [Option.map_some', Option.getD_some]
        rw [ceInnerAdd_val]
        by_cases hm : mn = m
        · simp [hm]
        · simp [hm]
    · rw [if_neg hn, if_neg (fun hh => hn hh.1.symm), add_zero]

theorem ceKeyStep_inner_nodup (name mn : String) (akb : List (String × KeyMetricWithMetadata))
    (tmd : List (String × List (String × CEAcc))) (k : String)
    (hinv : ∀ q ∈ tmd, (q.2.map Prod.fst).Nodup) :
    ∀ q ∈ ceKeyStep name mn akb tmd k, (q.2.map Prod.fst).Nodup := by
  unfold ceKeyStep
  cases dget? akb k with
  | none => exact hinv
  | some kmd =>
    refine dupd_val_pred (fun v => (v.map Prod.fst).Nodup) tmd _ _ hinv ?_
    intro v hv
    exact keys_ceInnerAdd_nodup v mn _ _ hv

theorem ceKeyFold_val (name mn : String) (akb : List (String × KeyMetricWithMetadata))
    (n m : String) :
    ∀ (ks : List String) (tmd : List (String × List (String × CEAcc))),
      (dget? tmd name).isSome →
      ceVal (ks.foldl (ceKeyStep name mn akb) tmd) n m
        = ceVal tmd n m
          + (if name = n ∧ mn = m then (ks.map (fun k => ceKeyContrib akb k)).sum else 0)
  | [], tmd, _ => by
    by_cases h : name = n ∧ mn = m <;> simp [h]
  | k :: ks, tmd, hp => by
    have hp2 : (dget? (ceKeyStep name mn akb tmd k) name).isSome := by
      have := keys_ceKeyStep name mn akb tmd k
      by_cases hx : dget? (ceKeyStep name mn akb tmd k) name = none
      · rw [dget?_eq_none_iff, this, ← dget?_eq_none_iff] at hx
        rw [hx] at hp
        simp at hp
      · cases hy : dget? (ceKeyStep name mn akb tmd k) name
        · exact absurd hy hx
        · simp
    rw [List.foldl_cons, ceKeyFold_val name mn akb n m ks _ hp2,
      ceKeyStep_val name mn akb tmd k n m hp]
    by_cases h : name = n ∧ mn = m
    · rw [if_pos h, if_pos h, if_pos h, List.map_cons, List.sum_cons]
      ring
    · rw [if_neg h, if_neg h, if_neg h]
      simp

theorem keys_ceKeyFold (name mn : String) (akb : List (String × KeyMetricWithMetadata)) :
    ∀ (ks : List String) (tmd : List (String × List (String × CEAcc))),
      (ks.foldl (ceKeyStep name mn akb) tmd).map Prod.fst = tmd.map Prod.fst
  | [], _ => rfl
  | k :: ks, tmd => by
    rw [List.foldl_cons, keys_ceKeyFold name mn akb ks _, keys_ceKeyStep]

theorem ceKeyFold_inner_nodup (name mn : String) (akb : List (String × KeyMetricWithMetadata)) :
    ∀ (ks : List String) (tmd : List (String × List (String × CEAcc))),
      (∀ q ∈ tmd, (q.2.map Prod.fst).Nodup) →
      ∀ q ∈ ks.foldl (ceKeyStep name mn akb) tmd, (q.2.map Prod.fst).Nodup
  | [], _, hinv => hinv
  | k :: ks, tmd, hinv => by
    rw [List.foldl_cons]
    exact ceKeyFold_inner_nodup name mn akb ks _
      (ceKeyStep_inner_nodup name mn akb tmd k hinv)

theorem ceGroupStep_val (name : String) (entity : MetricWithMetadata)
    (tmd : List (String × List (String × CEAcc))) (p : String × MetricWithMetadata)
    (n m : String) (hp : (dget? tmd name).isSome) :
    ceVal (ceGroupStep name entity tmd p) n m
      = ceVal tmd n m
        + (if name = n then (if p.1 = m then ceTeamModelContrib entity p else 0) else 0) := by
  unfold ceGroupStep ceTeamModelContrib
  rw [ceKeyFold_val name p.1 (p.2.api_key_breakdown.getD []) n m _ tmd hp]
  by_cases h1 : name = n
  · by_cases h2 : p.1 = m
    · rw [if_pos ⟨h1, h2⟩, if_pos h1, if_pos h2]
    · rw [if_neg (fun hh => h2 hh.2), if_pos h1, if_neg h2]
  · rw [if_neg (fun hh => h1 hh.1), if_neg h1]

theorem keys_ceGroupStep (name : String) (entity : MetricWithMetadata)
    (tmd : List (String × List (String × CEAcc))) (p : String × MetricWithMetadata) :
    (ceGroupStep name entity tmd p).map Prod.fst = tmd.map Prod.fst := by
  unfold ceGroupStep
  exact keys_ceKeyFold name p.1 _ _ tmd

theorem ceGroupFold_val (name : String) (entity : MetricWithMetadata) (n m : String) :
    ∀ (mgs : List (String × MetricWithMetadata)) (tmd : List (String × List (String × CEAcc))),
      (dget? tmd name).isSome →
      ceVal (mgs.foldl (ceGroupStep name entity) tmd) n m
        = ceVal tmd n m + (if name = n then ceTeamContrib entity mgs m else 0)
  | [], tmd, _ => by
    by_cases h : name = n <;> simp [h, ceTeamContrib]
  | p :: ps, tmd, hp => by
    have hp2 : (dget? (ceGroupStep name entity tmd p) name).isSome := by
      have hkeys := keys_ceGroupStep name entity tmd p
      by_cases hx : dget? (ceGroupStep name entity tmd p) name = none
      · rw [dget?_eq_none_iff, hkeys, ← dget?_eq_none_iff] at hx
        rw [hx] at hp
        simp at hp
      · cases hy : dget? (ceGroupStep name entity tmd p) name
        · exact absurd hy hx
        · simp
    rw [List.foldl_cons, ceGroupFold_val name entity n m ps _ hp2,
      ceGroupStep_val name entity tmd p n m hp]
    have hcons : ceTeamContrib entity (p :: ps) m
        = (if p.1 = m then ceTeamModelContrib entity p else 0) + ceTeamContrib entity ps m := by
      simp [ceTeamContrib]
    by_cases h : name = n
    · rw [if_pos h, if_pos h, if_pos h, hcons]
      ring
    · rw [if_neg h, if_neg h, if_neg h]
      simp

theorem ceEnsure_val (tmd : List (String × List (String × CEAcc))) (name n m : String) :
    ceVal (if (dget? tmd name).isSome then tmd else dset tmd name []) n m
      = ceVal tmd n m := by
  by_cases hp : (dget? tmd name).isSome
  · rw [if_pos hp]
  · rw [if_neg hp]
    unfold ceVal
    rw [dget?_dset]
    by_cases hn : n = name
    · subst hn
      have hx : dget? tmd n = none := by
        cases hy : dget? tmd n
        · rfl
        · rw [hy] at hp
          simp at hp
      rw [if_pos rfl, hx]
      simp [dget?]
    · rw [if_neg hn]

theorem ceTeamStep_val (teams : List Team) (entities mgs : List (String × MetricWithMetadata))
    (tmd : List (String × List (String × CEAcc))) (t : Team) (n m : String) :
    ceVal (ceTeamStep teams entities mgs tmd t) n m
      = ceVal tmd n m
        + (if rName teams t = n
           then ceTeamContrib ((dget? entities t.team_id).getD {}) mgs m else 0) := by
  unfold ceTeamStep
  have hp : (dget? (if (dget? tmd (getTeamName teams t.team_id)).isSome then tmd
      else dset tmd (getTeamName teams t.team_id) []) (getTeamName teams t.team_id)).isSome := by
    by_cases hx : (dget? tmd (getTeamName teams t.team_id)).isSome
    · rw [if_pos hx]
      exact hx
    · rw [if_neg hx, dget?_dset, if_pos rfl]
      simp
  rw [ceGroupFold_val (getTeamName teams t.team_id) _ n m mgs _ hp, ceEnsure_val]
  rfl

theorem keys_mono_ceTeamStep (teams : List Team)
    (entities mgs : List (String × MetricWithMetadata))
    (tmd : List (String × List (String × CEAcc))) (t : Team) (q : String)
    (hq : q ∈ tmd.map Prod.fst) : q ∈ (ceTeamStep teams entities mgs tmd t).map Prod.fst := by
  unfold ceTeamStep
  have : ∀ (mgs2 : List (String × MetricWithMetadata)) (d : List (String × List (String × CEAcc))),
      (mgs2.foldl (ceGroupStep (getTeamName teams t.team_id)
        ((dget? entities t.team_id).getD {})) d).map Prod.fst = d.map Prod.fst := by
    intro mgs2
    induction mgs2 with
    | nil => intro d; rfl
    | cons p ps ih =>
      intro d
      rw [List.foldl_cons, ih, keys_ceGroupStep]
  rw [this]
  by_cases hx : (dget? tmd (getTeamName teams t.team_id)).isSome
  · rw [if_pos hx]
    exact hq
  · rw [if_neg hx]
    by_cases hmem : getTeamName teams t.team_id ∈ tmd.map Prod.fst
    · rw [keys_dset_of_mem tmd _ _ hmem]
      exact hq
    · rw [keys_dset_of_not_mem tmd _ _ hmem]
      simp [hq]

/-- Well-formedness of the nested cost dict: outer and inner keys hold
no duplicates. -/
def CeWF (tmd : List (String × List (String × CEAcc))) : Prop :=
  (tmd.map Prod.fst).Nodup ∧ ∀ q ∈ tmd, (q.2.map Prod.fst).Nodup

theorem CeWF_ceTeamStep (teams : List Team)
    (entities mgs : List (String × MetricWithMetadata))
    (tmd : List (String × List (String × CEAcc))) (t : Team)
    (hwf : CeWF tmd) : CeWF (ceTeamStep teams entities mgs tmd t) := by
  unfold ceTeamStep
  set name := getTeamName teams t.team_id with hname
  have hens : CeWF (if (dget? tmd name).isSome then tmd else dset tmd name []) := by
    by_cases hx : (dget? tmd name).isSome
    · rw [if_pos hx]
      exact hwf
    · rw [if_neg hx]
      constructor
      · by_cases hmem : name ∈ tmd.map Prod.fst
        · rw [keys_dset_of_mem tmd _ _ hmem]
          exact hwf.1
        · rw [keys_dset_of_not_mem tmd _ _ hmem]
          simp [List.nodup_append, hwf.1, hmem]
      · intro q hq
        refine dset_val_pred (fun v => (v.map Prod.fst).Nodup) tmd name [] hwf.2 ?_ q hq
        simp
  have : ∀ (mgs2 : List (String × MetricWithMetadata))
      (d : List (String × List (String × CEAcc))), CeWF d →
      CeWF (mgs2.foldl (ceGroupStep name ((dget? entities t.team_id).getD {})) d) := by
    intro mgs2
    induction mgs2 with
    | nil => intro d hd; exact hd
    | cons p ps ih =>
      intro d hd
      rw [List.foldl_cons]
      refine ih _ ⟨?_, ?_⟩
      · rw [keys_ceGroupStep]
        exact hd.1
      · unfold ceGroupStep
        exact ceKeyFold_inner_nodup name p.1 _ _ d hd.2
  exact this mgs _ hens

theorem ceTeamFold_val (teams : List Team) (entities mgs : List (String × MetricWithMetadata))
    (n m : String) :
    ∀ (ts : List Team) (tmd : List (String × List (String × CEAcc))),
      ceVal (ts.foldl (ceTeamStep teams entities mgs) tmd) n m
        = ceVal tmd n m
          + (ts.map (fun t => if rName teams t = n
              then ceTeamContrib ((dget? entities t.team_id).getD {}) mgs m else 0)).sum
  | [], tmd => by simp
  | t :: ts, tmd => by
    rw [List.foldl_cons, ceTeamFold_val teams entities mgs n m ts _,
      ceTeamStep_val teams entities mgs tmd t n m, List.map_cons, List.sum_cons]
    ring

theorem CeWF_ceTeamFold (teams : List Team) (entities mgs : List (String × MetricWithMetadata)) :
    ∀ (ts : List Team) (tmd : List (String × List (String × CEAcc))),
      CeWF tmd → CeWF (ts.foldl (ceTeamStep teams entities mgs) tmd)
  | [], _, hwf => hwf
  | t :: ts, tmd, hwf => by
    rw [List.foldl_cons]
    exact CeWF_ceTeamFold teams entities mgs ts _ (CeWF_ceTeamStep teams entities mgs tmd t hwf)

theorem ceDayStep_val (teams : List Team) (tmd : List (String × List (String × CEAcc)))
    (e : DayEntry) (n m : String) (hnn : e.breakdown ≠ .null) :
    ∃ tmd2, ceDayStep teams tmd e = .ok tmd2 ∧
      (CeWF tmd → CeWF tmd2) ∧
      ceVal tmd2 n m = ceVal tmd n m + ceDayContrib teams e n m := by
  cases hb : e.breakdown with
  | null => exact absurd hb hnn
  | absent =>
    refine ⟨teams.foldl (ceTeamStep teams [] []) tmd, by rw [ceDayStep, hb], ?_, ?_⟩
    · exact fun hwf => CeWF_ceTeamFold teams [] [] teams tmd hwf
    · rw [ceTeamFold_val teams [] [] n m teams tmd, ceDayContrib, hb]
      have : ∀ t : Team, (if rName teams t = n
          then ceTeamContrib ((dget? ([] : List (String × MetricWithMetadata)) t.team_id).getD {}) [] m
          else 0) = (0 : ℤ × ℚ) := by
        intro t
        by_cases h : rName teams t = n <;> simp [h, ceTeamContrib]
      simp [this]
  | val b =>
    refine ⟨teams.foldl (ceTeamStep teams (b.entities.getD []) (b.model_groups.getD [])) tmd,
      by rw [ceDayStep, hb], ?_, ?_⟩
    · exact fun hwf => CeWF_ceTeamFold teams _ _ teams tmd hwf
    · rw [ceTeamFold_val teams _ _ n m teams tmd, ceDayContrib, hb]

theorem ceFold_days (teams : List Team) (n m : String) :
    ∀ (days : List DayEntry) (tmd res : List (String × List (String × CEAcc))),
      (∀ e ∈ days, e.breakdown ≠ .null) →
      days.foldlM (ceDayStep teams) tmd = .ok res →
        (CeWF tmd → CeWF res) ∧
        ceVal res n m
          = ceVal tmd n m + (days.map (fun e => ceDayContrib teams e n m)).sum
  | [], tmd, res, _, h => by
    simp only [List.foldlM_nil] at h
    have hres : tmd = res := by
      simp only [pure, Except.pure, Except.ok.injEq] at h
      exact h
    subst hres
    exact ⟨id, by simp⟩
  | e :: es, tmd, res, hwf, h => by
    rw [List.foldlM_cons] at h
    obtain ⟨tmd2, hstep, hwf2, hval2⟩ :=
      ceDayStep_val teams tmd e n m (hwf e (by simp))
    rw [hstep] at h
    simp only [Bind.bind, Except.bind] at h
    obtain ⟨hwfr, hvalr⟩ :=
      ceFold_days teams n m es tmd2 res (fun d hd => hwf d (by simp [hd])) h
    refine ⟨fun hw => hwfr (hwf2 hw), ?_⟩
    rw [hvalr, hval2, List.map_cons, List.sum_cons]
    ring

/-- The cost-efficiency fold never fails on null-free days. -/
theorem ceFold_success (teams : List Team) :
    ∀ (days : List DayEntry) (tmd : List (String × List (String × CEAcc))),
      (∀ e ∈ days, e.breakdown ≠ .null) →
      ∃ res, days.foldlM (ceDayStep teams) tmd = .ok res
  | [], tmd, _ => ⟨tmd, rfl⟩
  | e :: es, tmd, hwf => by
    rw [List.foldlM_cons]
    obtain ⟨tmd2, hstep, _, _⟩ :=
      ceDayStep_val teams tmd e "" "" (hwf e (by simp))
    obtain ⟨res, hres⟩ := ceFold_success teams es tmd2 (fun d hd => hwf d (by simp [hd]))
    refine ⟨res, ?_⟩
    rw [hstep]
    simpa only [Bind.bind, Except.bind] using hres

/-! ## Cost-efficiency output characterisation -/

theorem pyRound_zero (nd : ℕ) : pyRound nd 0 = 0 := by
  unfold pyRound roundHalfEven
  norm_num

/-- The observation the final cell of a (team, model) pair exposes, as a
function of the folded (tokens, cost) pair. -/
def ceCellsOf (x : ℤ × ℚ) : ℤ × ℚ × ℚ :=
  (x.1, pyRound 4 x.2, pyRound 4 (if x.1 > 0 then x.2 / (x.1 : ℚ) * 1000 else 0))

/-- Sum over cells attributed to one (team, model) pair of their
(tokens, rounded cost, rounded cost-per-1k). -/
def cellsObs (cells : List CECell) (n m : String) : ℤ × ℚ × ℚ :=
  (cells.map (fun c => if c.team = n ∧ c.model = m
    then (c.total_tokens, c.total_cost, c.cost_per_1k_tokens) else 0)).sum

theorem cellsObs_append (a b : List CECell) (n m : String) :
    cellsObs (a ++ b) n m = cellsObs a n m + cellsObs b n m := by
  simp [cellsObs]

theorem sum_if_eq_dget? {α M : Type} [AddCommMonoid M] (g : α → M) :
    ∀ (d : List (String × α)) (m : String), (d.map Prod.fst).Nodup →
      (d.map (fun p => if p.1 = m then g p.2 else 0)).sum
        = ((dget? d m).map g).getD 0
  | [], m, _ => by simp [dget?]
  | (a, b) :: t, m, hnd => by
    rw [List.map_cons, List.sum_cons, sum_if_eq_dget? g t m (List.nodup_cons.mp hnd).2]
    by_cases h : a = m
    · subst h
      have hout : a ∉ t.map Prod.fst := (List.nodup_cons.mp hnd).1
      have hnone : dget? t a = none := (dget?_eq_none_iff t a).mpr hout
      rw [dget?, if_pos rfl, if_pos rfl, hnone]
      simp
    · rw [dget?, if_neg h, if_neg h, zero_add]

theorem ceBuildCells_cons (q : String × List (String × CEAcc))
    (tmd : List (String × List (String × CEAcc))) :
    ceBuildCells (q :: tmd)
      = q.2.map (fun p => ceCell q.1 p.1 p.2) ++ ceBuildCells tmd := by
  unfold ceBuildCells
  rw [List.foldl_cons, foldl_append_map (fun p => ceCell q.1 p.1 p.2) q.2 []]
  simp only [List.nil_append]
  have : ∀ (rest : List (String × List (String × CEAcc))) (acc : List CECell),
      rest.foldl (fun cells q => q.2.foldl (fun cells p => cells ++ [ceCell q.1 p.1 p.2]) cells) acc
        = acc ++ rest.foldl (fun cells q =>
            q.2.foldl (fun cells p => cells ++ [ceCell q.1 p.1 p.2]) cells) [] := by
    intro rest
    induction rest with
    | nil => intro acc; simp
    | cons r rs ih =>
      intro acc
      rw [List.foldl_cons, List.foldl_cons,
        foldl_append_map (fun p => ceCell r.1 p.1 p.2) r.2 acc,
        foldl_append_map (fun p => ceCell r.1 p.1 p.2) r.2 [], ih, List.nil_append,
        ih (r.2.map (fun p => ceCell r.1 p.1 p.2))]
      simp
  rw [this]

/-- The flattened output lists, for every (team, model) pair of the
nested dict, exactly one cell carrying the pair's accumulated tokens,
rounded cost, and rounded cost-per-1k. -/
theorem cellsObs_ceBuildCells (n m : String) :
    ∀ (tmd : List (String × List (String × CEAcc))), CeWF tmd →
      cellsObs (ceBuildCells tmd) n m = ceCellsOf (ceVal tmd n m)
  | [], _ => by
    simp [ceBuildCells, cellsObs, ceVal, ceCellsOf, dget?, ceAccVal, pyRound_zero]
  | q :: tmd, hwf => by
    rw [ceBuildCells_cons, cellsObs_append,
      cellsObs_ceBuildCells n m tmd ⟨(List.nodup_cons.mp hwf.1).2,
        fun r hr => hwf.2 r (by simp [hr])⟩]
    have hinner : (q.2.map Prod.fst).Nodup := hwf.2 q (by simp)
    by_cases hq : q.1 = n
    · have hout : q.1 ∉ tmd.map Prod.fst := (List.nodup_cons.mp hwf.1).1
      have hrest : dget? tmd n = none := by
        rw [dget?_eq_none_iff]
        rw [hq] at hout
        exact hout
      have h1 : cellsObs (q.2.map (fun p => ceCell q.1 p.1 p.2)) n m
          = ((dget? q.2 m).map (fun c => ceCellsOf (ceAccVal c))).getD 0 := by
        unfold cellsObs
        rw [List.map_map]
        have hmap : ((fun c : CECell => if c.team = n ∧ c.model = m
            then (c.total_tokens, c.total_cost, c.cost_per_1k_tokens) else 0)
              ∘ fun p : String × CEAcc => ceCell q.1 p.1 p.2)
            = fun p : String × CEAcc => if p.1 = m then ceCellsOf (ceAccVal p.2) else 0 := by
          funext p
          simp only [Function.comp, ceCell, ceCellsOf, ceAccVal, hq]
          by_cases hm : p.1 = m
          · simp [hm]
          · simp [hm]
        rw [hmap]
        exact sum_if_eq_dget? (fun c => ceCellsOf (ceAccVal c)) q.2 m hinner
      have h2 : ceVal (q :: tmd) n m = ceAccVal ((dget? q.2 m).getD ⟨0, 0⟩) := by
        unfold ceVal
        rw [dget?, if_pos hq]
        simp
      rw [h1, h2, ceVal, hrest]
      cases hx : dget? q.2 m with
      | none => simp [ceCellsOf, ceAccVal, pyRound_zero, dget?]
      | some c => simp [ceCellsOf, ceAccVal, pyRound_zero, dget?]
    · have h1 : cellsObs (q.2.map (fun p => ceCell q.1 p.1 p.2)) n m = 0 := by
        unfold cellsObs
        rw [List.map_map]
        have hmap : ((fun c : CECell => if c.team = n ∧ c.model = m
            then (c.total_tokens, c.total_cost, c.cost_per_1k_tokens) else 0)
              ∘ fun p : String × CEAcc => ceCell q.1 p.1 p.2)
            = fun _ : String × CEAcc => (0 : ℤ × ℚ × ℚ) := by
          funext p
          simp [Function.comp, ceCell, hq]
        rw [hmap]
        simp
      have h2 : ceVal (q :: tmd) n m = ceVal tmd n m := by
        unfold ceVal
        rw [dget?, if_neg hq]
      rw [h1, h2, zero_add]

/-- Every output cell is built by `ceCell` from some accumulated
(team, model) pair. -/
theorem mem_ceBuildCells :
    ∀ (tmd : List (String × List (String × CEAcc))) (c : CECell), c ∈ ceBuildCells tmd →
      ∃ nq mq acc, c = ceCell nq mq acc
  | [], c, h => by simp [ceBuildCells] at h
  | q :: tmd, c, h => by
    rw [ceBuildCells_cons] at h
    rcases List.mem_append.mp h with h1 | h1
    · obtain ⟨p, _, rfl⟩ := List.mem_map.mp h1
      exact ⟨q.1, p.1, p.2, rfl⟩
    · exact mem_ceBuildCells tmd c h1

/-! ## Model-usage fold lemmas -/

/-- Accumulated token total of one display name. -/
def muVal (totals : List (String × ℤ)) (q : String) : ℤ := (dget? totals q).getD 0

/-- One day's token contribution to one display name (read from the
`models` map). -/
def muDayContrib (display : String → String) (e : DayEntry) (q : String) : ℤ :=
  match e.breakdown with
  | .val b =>
    ((b.models.getD []).map (fun p =>
      if display p.1 = q then (p.2.metrics.getD {}).total_tokens.getD 0 else 0)).sum
  | _ => 0

theorem nodup_keys_dset {α : Type} (d : List (String × α)) (k : String) (v : α)
    (hnd : (d.map Prod.fst).Nodup) : ((dset d k v).map Prod.fst).Nodup := by
  by_cases hmem : k ∈ d.map Prod.fst
  · rw [keys_dset_of_mem d k v hmem]
    exact hnd
  · rw [keys_dset_of_not_mem d k v hmem]
    simp [List.nodup_append, hnd, hmem]

theorem dget?_of_mem_nodup {α : Type} :
    ∀ (d : List (String × α)) (a : String) (b : α),
      (d.map Prod.fst).Nodup → (a, b) ∈ d → dget? d a = some b
  | [], a, b, _, h => by simp at h
  | (x, y) :: t, a, b, hnd, h => by
    rcases List.mem_cons.mp h with h1 | h1
    · rw [dget?]
      cases h1
      rw [if_pos rfl]
    · have hne : ¬x = a := by
        intro hh
        subst hh
        exact (List.nodup_cons.mp hnd).1
          (List.mem_map.mpr ⟨(x, b), h1, rfl⟩)
      rw [dget?, if_neg hne]
      exact dget?_of_mem_nodup t a b (List.nodup_cons.mp hnd).2 h1

theorem muModelStep_val (totals : List (String × ℤ)) (dn : String) (tt : ℤ) (q : String) :
    muVal (dset totals dn (muVal totals dn + tt)) q
      = muVal totals q + (if dn = q then tt else 0) := by
  unfold muVal
  rw [dget?_dset]
  by_cases h : q = dn
  · subst h
    rw [if_pos rfl, if_pos rfl]
    simp
  · rw [if_neg h, if_neg (fun hh => h hh.symm), add_zero]

theorem muModelsFold_val (display : String → String) (q : String) :
    ∀ (models : List (String × MetricWithMetadata)) (totals : List (String × ℤ)),
      muVal (models.foldl (fun totals p =>
          dset totals (display p.1) ((dget? totals (display p.1)).getD 0
            + (p.2.metrics.getD {}).total_tokens.getD 0)) totals) q
        = muVal totals q
          + (models.map (fun p =>
              if display p.1 = q then (p.2.metrics.getD {}).total_tokens.getD 0 else 0)).sum
  | [], totals => by simp
  | p :: ps, totals => by
    rw [List.foldl_cons, muModelsFold_val display q ps _]
    have hstep := muModelStep_val totals (display p.1)
      ((p.2.metrics.getD {}).total_tokens.getD 0) q
    unfold muVal at hstep ⊢
    rw [hstep, List.map_cons, List.sum_cons]
    ring

theorem muModelsFold_nodup (display : String → String) :
    ∀ (models : List (String × MetricWithMetadata)) (totals : List (String × ℤ)),
      (totals.map Prod.fst).Nodup →
      ((models.foldl (fun totals p =>
          dset totals (display p.1) ((dget? totals (display p.1)).getD 0
            + (p.2.metrics.getD {}).total_tokens.getD 0)) totals).map Prod.fst).Nodup
  | [], _, hnd => hnd
  | p :: ps, totals, hnd => by
    rw [List.foldl_cons]
    exact muModelsFold_nodup display ps _ (nodup_keys_dset totals _ _ hnd)

theorem muFold_days (display : String → String) (q : String) :
    ∀ (days : List DayEntry) (totals res : List (String × ℤ)),
      days.foldlM (muDayStep display) totals = .ok res →
        ((totals.map Prod.fst).Nodup → (res.map Prod.fst).Nodup) ∧
        muVal res q = muVal totals q + (days.map (fun e => muDayContrib display e q)).sum
  | [], totals, res, h => by
    simp only [List.foldlM_nil] at h
    have hres : totals = res := by
      simp only [pure, Except.pure, Except.ok.injEq] at h
      exact h
    subst hres
    exact ⟨id, by simp⟩
  | e :: es, totals, res, h => by
    rw [List.foldlM_cons] at h
    cases hb : e.breakdown with
    | null =>
      rw [muDayStep, hb] at h
      simp only [Bind.bind, Except.bind] at h
      exact absurd h (by simp)
    | absent =>
      rw [muDayStep, hb] at h
      simp only [Bind.bind, Except.bind] at h
      obtain ⟨hnd, hval⟩ := muFold_days display q es totals res h
      refine ⟨hnd, ?_⟩
      rw [hval, List.map_cons, List.sum_cons, muDayContrib, hb]
      ring
    | val b =>
      rw [muDayStep, hb] at h
      simp only [Bind.bind, Except.bind] at h
      obtain ⟨hnd, hval⟩ := muFold_days display q es _ res h
      refine ⟨fun h0 => hnd (muModelsFold_nodup display _ totals h0), ?_⟩
      rw [hval, muModelsFold_val display q _ totals, List.map_cons, List.sum_cons,
        muDayContrib, hb]
      ring

/-- The model-usage fold never fails on null-free days. -/
theorem muFold_success (display : String → String) :
    ∀ (days : List DayEntry) (totals : List (String × ℤ)),
      (∀ e ∈ days, e.breakdown ≠ .null) →
      ∃ res, days.foldlM (muDayStep display) totals = .ok res
  | [], totals, _ => ⟨totals, rfl⟩
  | e :: es, totals, hwf => by
    rw [List.foldlM_cons]
    cases hb : e.breakdown with
    | null => exact absurd hb (hwf e (by simp))
    | absent =>
      obtain ⟨res, hres⟩ := muFold_success display es totals (fun d hd => hwf d (by simp [hd]))
      refine ⟨res, ?_⟩
      rw [muDayStep, hb]
      simpa only [Bind.bind, Except.bind] using hres
    | val b =>
      obtain ⟨res, hres⟩ := muFold_success display es
        ((b.models.getD []).foldl (fun totals p =>
          dset totals (display p.1) ((dget? totals (display p.1)).getD 0
            + (p.2.metrics.getD {}).total_tokens.getD 0)) totals)
        (fun d hd => hwf d (by simp [hd]))
      refine ⟨res, ?_⟩
      rw [muDayStep, hb]
      simpa only [Bind.bind, Except.bind] using hres

/-! ## Sorting lemmas -/

instance : IsTotal (String × ℤ) (fun x y => x.2 ≥ y.2) :=
  ⟨fun a b => le_total b.2 a.2⟩

instance : IsTrans (String × ℤ) (fun x y => x.2 ≥ y.2) :=
  ⟨fun _ _ _ hab hbc => le_trans hbc hab⟩

theorem pySortByTokensDesc_sorted (l : List (String × ℤ)) :
    List.Sorted (fun x y : String × ℤ => x.2 ≥ y.2) (pySortByTokensDesc l) :=
  List.sorted_insertionSort _ l

theorem pySortByTokensDesc_perm (l : List (String × ℤ)) :
    List.Perm (pySortByTokensDesc l) l :=
  List.perm_insertionSort _ l

theorem filter_orderedInsert_count (c : ℤ) (a : String × ℤ) :
    ∀ l : List (String × ℤ),
      ((List.orderedInsert (fun x y => x.2 ≥ y.2) a l).filter (fun x => decide (x.2 = c)))
        = if a.2 = c then a :: l.filter (fun x => decide (x.2 = c))
          else l.filter (fun x => decide (x.2 = c))
  | [] => by
    by_cases h : a.2 = c <;> simp [List.orderedInsert, h]
  | b :: l => by
    rw [List.orderedInsert]
    by_cases hr : a.2 ≥ b.2
    · rw [if_pos hr]
      by_cases h : a.2 = c <;> simp [List.filter_cons, h]
    · rw [if_neg hr]
      rw [List.filter_cons, List.filter_cons]
      by_cases h : a.2 = c
      · have hbc : ¬b.2 = c := fun hh => hr (by rw [h, hh])
        rw [filter_orderedInsert_count c a l]
        simp [h, hbc]
      · rw [filter_orderedInsert_count c a l]
        simp [h]

theorem filter_insertionSortTokens (c : ℤ) :
    ∀ l : List (String × ℤ),
      ((List.insertionSort (fun x y : String × ℤ => x.2 ≥ y.2) l).filter
        (fun x => decide (x.2 = c)))
        = l.filter (fun x => decide (x.2 = c))
  | [] => rfl
  | a :: l => by
    rw [List.insertionSort,
      filter_orderedInsert_count c a (List.insertionSort (fun x y => x.2 ≥ y.2) l),
      List.filter_cons, filter_insertionSortTokens c l]
    by_cases h : a.2 = c
    · simp [h]
    · simp [h]

theorem filter_pySortByTokensDesc (c : ℤ) (l : List (String × ℤ)) :
    ((pySortByTokensDesc l).filter (fun x => decide (x.2 = c)))
      = l.filter (fun x => decide (x.2 = c)) :=
  filter_insertionSortTokens c l

/-! ## Time-series characterisation -/

theorem fetch_ts_eq (teams : List Team) (days : List DayEntry) :
    fetch_daily_timeseries_per_team teams (.ok ⟨days⟩) = .ok (days.map (tsRow teams)) := by
  show Except.ok (days.foldl (fun acc entry => acc ++ [tsRow teams entry]) []) = _
  rw [foldl_append_map (tsRow teams) days []]
  rw [List.nil_append]

/-! ## Small helpers for the claim statements -/

theorem mem_pyDictKeys :
    ∀ (ns seen : List String) (x : String),
      x ∈ pyDictKeys ns seen ↔ (x ∈ ns ∧ x ∉ seen)
  | [], seen, x => by simp [pyDictKeys]
  | n :: ns, seen, x => by
    by_cases hn : n ∈ seen
    · rw [pyDictKeys, if_pos hn, mem_pyDictKeys ns seen x]
      constructor
      · rintro ⟨h1, h2⟩
        exact ⟨by simp [h1], h2⟩
      · rintro ⟨h1, h2⟩
        rcases List.mem_cons.mp h1 with h3 | h3
        · exact absurd (h3 ▸ hn) h2
        · exact ⟨h3, h2⟩
    · rw [pyDictKeys, if_neg hn]
      by_cases hx : x = n
      · subst hx
        simp [hn]
      · rw [List.mem_cons]
        constructor
        · rintro (h1 | h1)
          · exact absurd h1 hx
          · have := (mem_pyDictKeys ns (seen ++ [n]) x).mp h1
            refine ⟨by simp [this.1], fun hc => this.2 (by simp [hc])⟩
        · rintro ⟨h1, h2⟩
          rcases List.mem_cons.mp h1 with h3 | h3
          · exact absurd h3 hx
          · refine .inr ((mem_pyDictKeys ns (seen ++ [n]) x).mpr ⟨h3, ?_⟩)
            simp [h2, hx]

theorem dupd_id {α : Type} (f : α → α) (hf : ∀ v, f v = v) :
    ∀ (d : List (String × α)) (k : String), dupd d k f = d
  | [], _ => rfl
  | (a, b) :: t, k => by
    by_cases hak : a = k
    · rw [dupd, if_pos hak, hf b]
    · rw [dupd, if_neg hak, dupd_id f hf t k]

theorem prod_fst_sum {M N : Type} [AddCommMonoid M] [AddCommMonoid N] :
    ∀ l : List (M × N), (l.sum).1 = (l.map Prod.fst).sum
  | [] => rfl
  | x :: l => by
    rw [List.sum_cons, List.map_cons, List.sum_cons, Prod.fst_add, prod_fst_sum l]

/-- One day's `total_tokens` contribution to the record under name `n`
(the spec-level reading of the token-aggregation fold). -/
def taDayTokens (teams : List Team) (e : DayEntry) (n : String) : ℤ :=
  match e.breakdown with
  | .val b => ((b.entities.getD []).map (fun p =>
      if getTeamName teams p.1 = n then entityTokens p.2 else 0)).sum
  | _ => 0

theorem taDayContrib_fst (teams : List Team) (e : DayEntry) (n k m : String) :
    (taDayContrib teams e n k m).1 = taDayTokens teams e n := by
  unfold taDayContrib taDayTokens
  cases e.breakdown with
  | null => rfl
  | absent => rfl
  | val b =>
    rw [prod_fst_sum, List.map_map]
    refine congrArg List.sum (List.map_congr_left ?_)
    intro p _
    simp only [Function.comp, taEntityContrib]
    by_cases h : getTeamName teams p.1 = n <;> simp [h]

theorem tsRow_eq (teams : List Team) (e : DayEntry) :
    tsRow teams e
      = { date := e.date, teams := teams.map (tsTeamEntry teams (entitiesOf e.breakdown)) } := by
  unfold tsRow entitiesOf
  cases e.breakdown <;> rfl

/-- Invert a successful success-rate fetch into its fold result. -/
theorem fetch_sr_ok_inv (teams : List Team) (days : List DayEntry) (res : List SRRow)
    (h : fetch_team_success_rate_summary teams (.ok ⟨days⟩) = .ok res) :
    ∃ tm, days.foldlM (srDayStep teams) (srInit teams) = .ok tm
      ∧ res = tm.map (fun p => srRow p.1 p.2) := by
  have h2 : Except.map (fun tm => tm.map (fun p => srRow p.1 p.2))
      (days.foldlM (srDayStep teams) (srInit teams)) = .ok res := h
  cases hfold : days.foldlM (srDayStep teams) (srInit teams) with
  | error e =>
    rw [hfold] at h2
    simp [Except.map] at h2
  | ok tm =>
    rw [hfold] at h2
    simp only [Except.map, Except.ok.injEq] at h2
    exact ⟨tm, rfl, h2.symm⟩

/-- Invert a successful cost-efficiency fetch into its fold result. -/
theorem fetch_ce_ok_inv (teams : List Team) (days : List DayEntry) (cells : List CECell)
    (h : fetch_cost_efficiency teams (.ok ⟨days⟩) = .ok cells) :
    ∃ tmd, days.foldlM (ceDayStep teams) [] = .ok tmd ∧ cells = ceBuildCells tmd := by
  have h2 : Except.map ceBuildCells (days.foldlM (ceDayStep teams) []) = .ok cells := h
  cases hfold : days.foldlM (ceDayStep teams) [] with
  | error e =>
    rw [hfold] at h2
    simp [Except.map] at h2
  | ok tmd =>
    rw [hfold] at h2
    simp only [Except.map, Except.ok.injEq] at h2
    exact ⟨tmd, rfl, h2.symm⟩

/-- Invert a successful model-usage fetch into its fold result. -/
theorem fetch_mu_ok_inv (display : String → String) (days : List DayEntry)
    (out : List (String × ℤ))
    (h : fetch_model_usage display (.ok ⟨days⟩) = .ok out) :
    ∃ totals, days.foldlM (muDayStep display) [] = .ok totals
      ∧ out = pySortByTokensDesc (totals.filter (fun p => decide (p.2 > 0))) := by
  have h2 : Except.map (fun totals => pySortByTokensDesc (totals.filter (fun p => decide (p.2 > 0))))
      (days.foldlM (muDayStep display) []) = .ok out := h
  cases hfold : days.foldlM (muDayStep display) [] with
  | error e =>
    rw [hfold] at h2
    simp [Except.map] at h2
  | ok totals =>
    rw [hfold] at h2
    simp only [Except.map, Except.ok.injEq] at h2
    exact ⟨totals, rfl, h2.symm⟩

theorem fetch_ta_eq (teams : List Team) (days : List DayEntry) :
    fetch_total_tokens_per_team teams (.ok ⟨days⟩)
      = days.foldlM (taDayStep teams) (taInit teams) := rfl

/-! ## Sample data used by the concrete witnesses -/

theorem roundHalfEven_intCast (z : ℤ) : roundHalfEven (z : ℚ) = z := by
  unfold roundHalfEven
  rw [Int.floor_intCast]
  norm_num

theorem pyRound_of_mul_eq_int (nd : ℕ) (q : ℚ) (z : ℤ) (h : q * 10 ^ nd = (z : ℚ)) :
    pyRound nd q = (z : ℚ) / 10 ^ nd := by
  unfold pyRound
  rw [h, roundHalfEven_intCast]

theorem pyRound_of_floor_lt_half (nd : ℕ) (q : ℚ) (z : ℤ)
    (h1 : ⌊q * 10 ^ nd⌋ = z) (h2 : q * 10 ^ nd - (z : ℚ) < 1 / 2) :
    pyRound nd q = (z : ℚ) / 10 ^ nd := by
  unfold pyRound roundHalfEven
  rw [h1, if_pos h2]

/-- Extract the payload of a successful computation (default otherwise). -/
def okD {α : Type} (dflt : α) : Except String α → α
  | .ok a => a
  | .error _ => dflt

def sTeams : List Team := [⟨"t1", some "Team One"⟩]

def sMetricsA : MetricsDict :=
  { total_tokens := some 1000, api_requests := some 100,
    successful_requests := some 95, failed_requests := some 5 }

def sMetricsB : MetricsDict :=
  { total_tokens := some 500, api_requests := some 150,
    successful_requests := some 140, failed_requests := some 10 }

def sDayA : DayEntry :=
  { breakdown := .val { entities := some [("t1", { metrics := some sMetricsA })] } }

def sDayB : DayEntry :=
  { breakdown := .val { entities := some [("t1", { metrics := some sMetricsB })] } }

def c3Days : List DayEntry := [sDayA, sDayB]

/-- C3: for every input document and requested team, the success-rate
projector outputs `success_rate = successful / total * 100` rounded to
two decimals, where the counters are the sums of the per-day
`api_requests` / `successful_requests` / `failed_requests` across all
days; `total_requests = 0` yields `success_rate = 0.0`; and
successful=235, total=250 yields 94.0. -/
theorem C3_success_rate_formula (teams : List Team) (days : List DayEntry)
    (summary : List SRRow)
    (h : fetch_team_success_rate_summary teams (.ok ⟨days⟩) = .ok summary) :
    (∀ row ∈ summary,
      row.success_rate = pyRound 2 (if row.total_requests > 0
        then (row.successful_requests : ℚ) / (row.total_requests : ℚ) * 100 else 0)
      ∧ (row.total_requests = 0 → row.success_rate = 0)
      ∧ (row.total_requests, row.successful_requests, row.failed_requests)
          = (days.map (fun e => srDayContrib teams e row.name)).sum)
    ∧ pyRound 2 ((235 : ℚ) / 250 * 100) = 94 := by
  have hpart : pyRound 2 ((235 : ℚ) / 250 * 100) = 94 := by
    have := pyRound_of_mul_eq_int 2 ((235 : ℚ) / 250 * 100) 9400 (by norm_num)
    rw [this]
    norm_num
  obtain ⟨tm, hfold, hres⟩ := fetch_sr_ok_inv teams days summary h
  constructor
  · intro row hrow
    rw [hres] at hrow
    obtain ⟨p, hp, hrw⟩ := List.mem_map.mp hrow
    subst hrw
    refine ⟨by simp [srRow, srRate], ?_, ?_⟩
    · intro h0
      simp only [srRow] at h0 ⊢
      rw [srRate, h0]
      simp [pyRound_zero]
    · have hkeys : tm.map Prod.fst = (srInit teams).map Prod.fst :=
        keys_srFold_days teams days (srInit teams) tm hfold
      have hnd : (tm.map Prod.fst).Nodup := by
        rw [hkeys, keys_srInit]
        exact pyDictKeys_nodup _ _
      have hget : dget? tm p.1 = some p.2 := dget?_of_mem_nodup tm p.1 p.2 hnd hp
      have hchar := srFold_days teams p.1 days (srInit teams) tm hfold
      rw [hget, dget?_srInit] at hchar
      by_cases hmem : p.1 ∈ teams.map (fun t => rName teams t)
      · rw [if_pos hmem] at hchar
        simp only [Option.map_some', Option.some.injEq] at hchar
        have : (srRow p.1 p.2).name = p.1 := rfl
        rw [this]
        rw [hchar]
        simp [srRow, SRCounters.addT]
      · rw [if_neg hmem] at hchar
        simp at hchar
  · exact hpart

theorem C3_success_rate_formula_witness :
    pyRound 2 ((235 : ℚ) / 250 * 100) = 94 :=
  (C3_success_rate_formula sTeams c3Days
    (okD [] (fetch_team_success_rate_summary sTeams (.ok ⟨c3Days⟩))) rfl).2

/-- C4: for every (team, model) cell of the cost-efficiency projector,
`cost_per_1k_tokens` is the folded cost over the folded tokens, times
1000, rounded to four decimals; zero folded tokens yield 0.0; and cost
9.999999 over 333333 tokens rounds to 0.03. -/
theorem C4_cost_per_1k (teams : List Team) (days : List DayEntry) (cells : List CECell)
    (h : fetch_cost_efficiency teams (.ok ⟨days⟩) = .ok cells) :
    (∀ c ∈ cells,
      (c.total_tokens = 0 → c.cost_per_1k_tokens = 0)
      ∧ ∃ cost : ℚ, c.total_cost = pyRound 4 cost
          ∧ c.cost_per_1k_tokens
              = pyRound 4 (if c.total_tokens > 0
                  then cost / (c.total_tokens : ℚ) * 1000 else 0))
    ∧ pyRound 4 ((9999999 : ℚ) / 1000000 / 333333 * 1000) = 3 / 100 := by
  constructor
  · obtain ⟨tmd, _, hcells⟩ := fetch_ce_ok_inv teams days cells h
    intro c hc
    rw [hcells] at hc
    obtain ⟨nq, mq, acc, rfl⟩ := mem_ceBuildCells tmd c hc
    constructor
    · intro h0
      simp only [ceCell] at h0 ⊢
      rw [h0]
      simp [pyRound_zero]
    · exact ⟨acc.total_cost, rfl, rfl⟩
  · have h1 : ⌊((9999999 : ℚ) / 1000000 / 333333 * 1000) * 10 ^ 4⌋ = 300 := by
      refine Int.floor_eq_iff.mpr ⟨by norm_num, by norm_num⟩
    have := pyRound_of_floor_lt_half 4 ((9999999 : ℚ) / 1000000 / 333333 * 1000) 300 h1
      (by norm_num)
    rw [this]
    norm_num

def c4Kmd : KeyMetricWithMetadata :=
  { metrics := some { total_tokens := some 333333, spend := some (9999999 / 1000000) } }

def c4Days : List DayEntry :=
  [{ breakdown := .val
      { entities := some [("t1", { api_key_breakdown := some [("K", c4Kmd)] })],
        model_groups := some [("m", { api_key_breakdown := some [("K", c4Kmd)] })] } }]

theorem C4_cost_per_1k_witness :
    pyRound 4 ((9999999 : ℚ) / 1000000 / 333333 * 1000) = 3 / 100 :=
  (C4_cost_per_1k sTeams c4Days
    (okD [] (fetch_cost_efficiency sTeams (.ok ⟨c4Days⟩))) rfl).2

/-- C7: the time-series projector emits one row per upstream day, in
upstream order, each row listing every requested team exactly once with
that single day's tokens and request counters; a team absent from a
day's entities appears zero-filled; no cross-day accumulation occurs. -/
theorem C7_time_series (teams : List Team) (days : List DayEntry) (out : List TSRow)
    (h : fetch_daily_timeseries_per_team teams (.ok ⟨days⟩) = .ok out) :
    out = days.map (fun e =>
        { date := e.date, teams := teams.map (tsTeamEntry teams (entitiesOf e.breakdown)) })
    ∧ out.length = days.length
    ∧ ∀ (es : List (String × MetricWithMetadata)) (t : Team),
        dget? es t.team_id = none →
        tsTeamEntry teams es t
          = { name := rName teams t, tokens := 0, total_requests := 0,
              successful_requests := 0, failed_requests := 0 } := by
  rw [fetch_ts_eq teams days] at h
  have hout : out = days.map (tsRow teams) := by
    simpa using h.symm
  refine ⟨?_, ?_, ?_⟩
  · rw [hout]
    exact List.map_congr_left (fun e _ => tsRow_eq teams e)
  · rw [hout]
    simp
  · intro es t hnone
    unfold tsTeamEntry rName
    rw [hnone]
    rfl

def c7Days : List DayEntry :=
  [{ date := some "2024-01-15", breakdown := .null }, sDayA]

theorem C7_time_series_witness :
    okD [] (fetch_daily_timeseries_per_team sTeams (.ok ⟨c7Days⟩))
      = c7Days.map (fun e =>
          { date := e.date, teams := sTeams.map (tsTeamEntry sTeams (entitiesOf e.breakdown)) }) :=
  (C7_time_series sTeams c7Days
    (okD [] (fetch_daily_timeseries_per_team sTeams (.ok ⟨c7Days⟩))) rfl).1

/-- C9: an upstream fetch failure is surfaced by every projector as a
single error carrying the upstream failure's human-readable cause (the
text after the first `": "` of the upstream message) unchanged, and no
aggregation output is produced. -/
theorem C9_error_propagation (teams : List Team) (display : String → String)
    (msg : String) (cause : List Char)
    (h : splitAfterColonSpace msg.data = some cause) :
    fetch_team_success_rate_summary teams (.error msg)
        = .error ("Error fetching team token usage: " ++ String.mk cause)
    ∧ fetch_total_tokens_per_team teams (.error msg)
        = .error ("Error fetching team token usage: " ++ String.mk cause)
    ∧ fetch_daily_timeseries_per_team teams (.error msg)
        = .error ("Error fetching team token usage: " ++ String.mk cause)
    ∧ fetch_cost_efficiency teams (.error msg)
        = .error ("Error fetching team data: " ++ String.mk cause)
    ∧ fetch_model_usage display (.error msg) = .error msg := by
  have hw : ∀ pre, wrapFetchErr pre msg = pre ++ String.mk cause := by
    intro pre
    unfold wrapFetchErr
    rw [h]
  refine ⟨?_, ?_, ?_, ?_, rfl⟩
  · show Except.error (wrapFetchErr "Error fetching team token usage: " msg) = _
    rw [hw]
  · show Except.error (wrapFetchErr "Error fetching team token usage: " msg) = _
    rw [hw]
  · show Except.error (wrapFetchErr "Error fetching team token usage: " msg) = _
    rw [hw]
  · show Except.error (wrapFetchErr "Error fetching team data: " msg) = _
    rw [hw]

theorem C9_error_propagation_witness :
    fetch_team_success_rate_summary sTeams
        (.error "Error fetching activity for multiple teams: connection refused")
      = .error "Error fetching team token usage: connection refused" :=
  (C9_error_propagation sTeams (fun n => n)
    "Error fetching activity for multiple teams: connection refused"
    ("connection refused".data) rfl).1

/-- C1: folding the days in any order yields the same accumulated
totals: the success-rate summary is identical under permutation of the
days, and the token-aggregation totals (per team and per
`(api_key, model)` pair) and cost-efficiency totals (per
`(team, model)` pair) agree at every key. -/
theorem C1_fold_order_invariance
    (teams : List Team) (days days2 : List DayEntry) (hperm : days.Perm days2)
    (hwf : ∀ e ∈ days, DayWF e)
    (srOut srOut2 : List SRRow) (taOut taOut2 : List (String × TeamTotal))
    (ceOut ceOut2 : List CECell)
    (hsr : fetch_team_success_rate_summary teams (.ok ⟨days⟩) = .ok srOut)
    (hsr2 : fetch_team_success_rate_summary teams (.ok ⟨days2⟩) = .ok srOut2)
    (hta : fetch_total_tokens_per_team teams (.ok ⟨days⟩) = .ok taOut)
    (hta2 : fetch_total_tokens_per_team teams (.ok ⟨days2⟩) = .ok taOut2)
    (hce : fetch_cost_efficiency teams (.ok ⟨days⟩) = .ok ceOut)
    (hce2 : fetch_cost_efficiency teams (.ok ⟨days2⟩) = .ok ceOut2) :
    srOut = srOut2
    ∧ (∀ n k m, taObs taOut n k m = taObs taOut2 n k m)
    ∧ (∀ n m, cellsObs ceOut n m = cellsObs ceOut2 n m) := by
  have hwf2 : ∀ e ∈ days2, DayWF e := fun e he => hwf e (hperm.mem_iff.mpr he)
  refine ⟨?_, ?_, ?_⟩
  · obtain ⟨tm, hfold, hres⟩ := fetch_sr_ok_inv teams days srOut hsr
    obtain ⟨tm2, hfold2, hres2⟩ := fetch_sr_ok_inv teams days2 srOut2 hsr2
    have htm : tm = tm2 := by
      refine assoc_ext tm tm2 ?_ ?_ ?_
      · rw [keys_srFold_days teams days _ tm hfold,
          keys_srFold_days teams days2 _ tm2 hfold2]
      · rw [keys_srFold_days teams days _ tm hfold, keys_srInit]
        exact pyDictKeys_nodup _ _
      · intro q
        rw [srFold_days teams q days _ tm hfold, srFold_days teams q days2 _ tm2 hfold2,
          (hperm.map (fun e => srDayContrib teams e q)).sum_eq]
    rw [hres, hres2, htm]
  · intro n k m
    rw [fetch_ta_eq] at hta hta2
    obtain ⟨_, hobs⟩ := taFold_days teams n k m days _ taOut (TdInv_taInit teams) hwf hta
    obtain ⟨_, hobs2⟩ := taFold_days teams n k m days2 _ taOut2 (TdInv_taInit teams) hwf2 hta2
    rw [hobs, hobs2, (hperm.map (fun e => taDayContrib teams e n k m)).sum_eq]
  · intro n m
    obtain ⟨tmd, hfold, hcells⟩ := fetch_ce_ok_inv teams days ceOut hce
    obtain ⟨tmd2, hfold2, hcells2⟩ := fetch_ce_ok_inv teams days2 ceOut2 hce2
    have hwfe : CeWF ([] : List (String × List (String × CEAcc))) := ⟨by simp, by simp⟩
    obtain ⟨hw, hval⟩ := ceFold_days teams n m days [] tmd (fun e he => (hwf e he).1) hfold
    obtain ⟨hw2, hval2⟩ :=
      ceFold_days teams n m days2 [] tmd2 (fun e he => (hwf2 e he).1) hfold2
    rw [hcells, hcells2, cellsObs_ceBuildCells n m tmd (hw hwfe),
      cellsObs_ceBuildCells n m tmd2 (hw2 hwfe), hval, hval2,
      (hperm.map (fun e => ceDayContrib teams e n m)).sum_eq]

theorem C1_fold_order_invariance_witness :
    okD [] (fetch_team_success_rate_summary sTeams (.ok ⟨[sDayA, sDayB]⟩))
      = okD [] (fetch_team_success_rate_summary sTeams (.ok ⟨[sDayB, sDayA]⟩)) :=
  (C1_fold_order_invariance sTeams [sDayA, sDayB] [sDayB, sDayA]
    (List.Perm.swap sDayB sDayA []) (by decide)
    (okD [] (fetch_team_success_rate_summary sTeams (.ok ⟨[sDayA, sDayB]⟩)))
    (okD [] (fetch_team_success_rate_summary sTeams (.ok ⟨[sDayB, sDayA]⟩)))
    (okD [] (fetch_total_tokens_per_team sTeams (.ok ⟨[sDayA, sDayB]⟩)))
    (okD [] (fetch_total_tokens_per_team sTeams (.ok ⟨[sDayB, sDayA]⟩)))
    (okD [] (fetch_cost_efficiency sTeams (.ok ⟨[sDayA, sDayB]⟩)))
    (okD [] (fetch_cost_efficiency sTeams (.ok ⟨[sDayB, sDayA]⟩)))
    rfl rfl rfl rfl rfl rfl).1

/-- C10: requested team ids resolving to the same display name share a
single output entry in the team-totals and success-rate projectors: the
outputs are keyed by the distinct display names in first-occurrence
order, the shared name has exactly one entry, and that entry
accumulates the metrics of every id resolving to it. -/
theorem C10_display_name_collision
    (teams : List Team) (days : List DayEntry) (t1 t2 : Team)
    (h1 : t1 ∈ teams) (_h2 : t2 ∈ teams) (_hne : t1.team_id ≠ t2.team_id)
    (_hsame : rName teams t1 = rName teams t2)
    (hwf : ∀ e ∈ days, DayWF e)
    (summary : List SRRow) (td : List (String × TeamTotal))
    (hsr : fetch_team_success_rate_summary teams (.ok ⟨days⟩) = .ok summary)
    (hta : fetch_total_tokens_per_team teams (.ok ⟨days⟩) = .ok td) :
    summary.map (fun r => r.name) = dedupFirst (teams.map (fun t => rName teams t))
    ∧ td.map Prod.fst = dedupFirst (teams.map (fun t => rName teams t))
    ∧ (summary.map (fun r => r.name)).count (rName teams t1) = 1
    ∧ (td.map Prod.fst).count (rName teams t1) = 1
    ∧ (∀ row ∈ summary, row.name = rName teams t1 →
        (row.total_requests, row.successful_requests, row.failed_requests)
          = (days.map (fun e => srDayContrib teams e row.name)).sum)
    ∧ (∀ p ∈ td, p.1 = rName teams t1 →
        p.2.total_tokens = (days.map (fun e => taDayTokens teams e p.1)).sum) := by
  obtain ⟨tm, hfold, hres⟩ := fetch_sr_ok_inv teams days summary hsr
  rw [fetch_ta_eq] at hta
  obtain ⟨hkeysta, _⟩ :=
    taFold_days teams "" "" "" days _ td (TdInv_taInit teams) hwf hta
  have hmemname : rName teams t1 ∈ teams.map (fun t => rName teams t) :=
    List.mem_map.mpr ⟨t1, h1, rfl⟩
  have hmemdedup : rName teams t1 ∈ dedupFirst (teams.map (fun t => rName teams t)) :=
    (mem_pyDictKeys _ [] _).mpr ⟨hmemname, by simp⟩
  have hnddedup : (dedupFirst (teams.map (fun t => rName teams t))).Nodup :=
    pyDictKeys_nodup _ _
  have hsummap : summary.map (fun r => r.name)
      = dedupFirst (teams.map (fun t => rName teams t)) := by
    rw [hres, List.map_map]
    have hc : ((fun r : SRRow => r.name) ∘ fun p : String × SRCounters => srRow p.1 p.2)
        = Prod.fst := by
      funext p
      rfl
    rw [hc, keys_srFold_days teams days _ tm hfold, keys_srInit]
  have htdmap : td.map Prod.fst = dedupFirst (teams.map (fun t => rName teams t)) := by
    rw [hkeysta, keys_taInit]
  refine ⟨hsummap, htdmap, ?_, ?_, ?_, ?_⟩
  · rw [hsummap]
    exact List.count_eq_one_of_mem hnddedup hmemdedup
  · rw [htdmap]
    exact List.count_eq_one_of_mem hnddedup hmemdedup
  · intro row hrow _
    rw [hres] at hrow
    obtain ⟨p, hp, hrw⟩ := List.mem_map.mp hrow
    subst hrw
    have hnd : (tm.map Prod.fst).Nodup := by
      rw [keys_srFold_days teams days _ tm hfold, keys_srInit]
      exact pyDictKeys_nodup _ _
    have hget : dget? tm p.1 = some p.2 := dget?_of_mem_nodup tm p.1 p.2 hnd hp
    have hchar := srFold_days teams p.1 days (srInit teams) tm hfold
    rw [hget, dget?_srInit] at hchar
    by_cases hmem : p.1 ∈ teams.map (fun t => rName teams t)
    · rw [if_pos hmem] at hchar
      simp only [Option.map_some', Option.some.injEq] at hchar
      have hname : (srRow p.1 p.2).name = p.1 := rfl
      rw [hname, hchar]
      simp [srRow, SRCounters.addT]
    · rw [if_neg hmem] at hchar
      simp at hchar
  · intro p hp _
    have hnd : (td.map Prod.fst).Nodup := by
      rw [htdmap]
      exact hnddedup
    have hget : dget? td p.1 = some p.2 := dget?_of_mem_nodup td p.1 p.2 hnd hp
    obtain ⟨_, hobs⟩ :=
      taFold_days teams p.1 "" "" days _ td (TdInv_taInit teams) hwf hta
    unfold taObs at hobs
    rw [hget, dget?_taInit] at hobs
    have hmem : p.1 ∈ teams.map (fun t => rName teams t) := by
      have : p.1 ∈ td.map Prod.fst := List.mem_map.mpr ⟨p, hp, rfl⟩
      rw [htdmap] at this
      exact ((mem_pyDictKeys _ [] _).mp this).1
    rw [if_pos hmem] at hobs
    simp only [Option.map_some', Option.some.injEq] at hobs
    have hfst := congrArg Prod.fst hobs
    have hmapc : ((days.map (fun e => taDayContrib teams e p.1 "" "")).map Prod.fst).sum
        = (days.map (fun e => taDayTokens teams e p.1)).sum := by
      rw [List.map_map]
      refine congrArg List.sum (List.map_congr_left ?_)
      intro e _
      exact taDayContrib_fst teams e p.1 "" ""
    rw [show (p.2.total_tokens, kmObs p.2.api_keys "" "").1 = p.2.total_tokens from rfl] at hfst
    rw [hfst, Prod.fst_add, prod_fst_sum, hmapc]
    show (0 : ℤ) + _ = _
    rw [zero_add]

def c10Teams : List Team := [⟨"a", some "Shared"⟩, ⟨"b", some "Shared"⟩]

theorem C10_display_name_collision_witness :
    ((okD [] (fetch_team_success_rate_summary c10Teams (.ok ⟨[sDayA]⟩))).map
      (fun r => r.name)).count (rName c10Teams ⟨"a", some "Shared"⟩) = 1 :=
  (C10_display_name_collision c10Teams [sDayA] ⟨"a", some "Shared"⟩ ⟨"b", some "Shared"⟩
    (by simp [c10Teams]) (by simp [c10Teams]) (by decide) rfl (by decide)
    (okD [] (fetch_team_success_rate_summary c10Teams (.ok ⟨[sDayA]⟩)))
    (okD [] (fetch_total_tokens_per_team c10Teams (.ok ⟨[sDayA]⟩)))
    rfl rfl).2.2.1

/-- C8: the model-usage output holds no zero-token entry, is sorted by
token count descending, and entries of equal token count keep their
first-seen order from the fold. -/
theorem C8_model_usage_order (display : String → String) (days : List DayEntry)
    (out : List (String × ℤ))
    (h : fetch_model_usage display (.ok ⟨days⟩) = .ok out) :
    (∀ p ∈ out, p.2 ≠ 0)
    ∧ List.Sorted (fun x y : String × ℤ => x.2 ≥ y.2) out
    ∧ ∃ totals, days.foldlM (muDayStep display) [] = .ok totals ∧
        ∀ c : ℤ, out.filter (fun x => decide (x.2 = c))
          = (totals.filter (fun p => decide (p.2 > 0))).filter (fun x => decide (x.2 = c)) := by
  obtain ⟨totals, hfold, hout⟩ := fetch_mu_ok_inv display days out h
  refine ⟨?_, ?_, totals, hfold, ?_⟩
  · intro p hp
    rw [hout] at hp
    have hp2 : p ∈ totals.filter (fun p => decide (p.2 > 0)) :=
      (pySortByTokensDesc_perm _).mem_iff.mp hp
    have := (List.mem_filter.mp hp2).2
    simp only [decide_eq_true_eq] at this
    omega
  · rw [hout]
    exact pySortByTokensDesc_sorted _
  · intro c
    rw [hout]
    exact filter_pySortByTokensDesc c _

def mwmTok (n : ℤ) : MetricWithMetadata := { metrics := some { total_tokens := some n } }

def c8Bd : BreakdownDict :=
  { models := some [("a", mwmTok 5), ("z", mwmTok 0), ("b", mwmTok 9), ("c", mwmTok 5)] }

def c8Days : List DayEntry := [{ breakdown := .val c8Bd }]

theorem C8_model_usage_order_witness :
    List.Sorted (fun x y : String × ℤ => x.2 ≥ y.2)
      (okD [] (fetch_model_usage (fun n => n) (.ok ⟨c8Days⟩))) :=
  (C8_model_usage_order (fun n => n) c8Days
    (okD [] (fetch_model_usage (fun n => n) (.ok ⟨c8Days⟩))) rfl).2.1

/-- The per-model accumulation the claim asserts, following the spec's
words: `total_tokens` summed per model name over the `model_groups` map
of every day. -/
def mgTotal (doc : SpendResponse) (q : String) : ℤ :=
  (doc.results.map (fun e =>
    match e.breakdown with
    | .val b => ((b.model_groups.getD []).map (fun p =>
        if p.1 = q then (p.2.metrics.getD {}).total_tokens.getD 0 else 0)).sum
    | _ => 0)).sum

def c5Bd : BreakdownDict := { model_groups := some [("m", mwmTok 5)] }

def c5Doc : SpendResponse := ⟨[{ breakdown := .val c5Bd }]⟩

/-- C5 counterexample: on a document in the upstream shape (per-model
records under `model_groups`), the model-usage projector returns an
empty result even though model `"m"` has a non-zero accumulated total
of 5 tokens — the service reads the `models` key instead. -/
theorem C5_counterexample :
    fetch_model_usage (fun n => n) (.ok c5Doc) = .ok []
    ∧ mgTotal c5Doc "m" = 5 ∧ (5 : ℤ) ≠ 0 := ⟨rfl, by decide, by decide⟩

/-- C5 (amended): the model-usage projector folds `total_tokens` per
display name from each day's `models` map (not `model_groups`),
independent of team attribution: every display name with a positive
accumulated total appears in the output with exactly that total, and
every output entry carries its accumulated total. -/
theorem C5_model_usage_totals (display : String → String) (days : List DayEntry)
    (out : List (String × ℤ))
    (h : fetch_model_usage display (.ok ⟨days⟩) = .ok out) :
    (∀ p ∈ out, p.2 = (days.map (fun e => muDayContrib display e p.1)).sum ∧ 0 < p.2)
    ∧ ∀ q, 0 < (days.map (fun e => muDayContrib display e q)).sum →
        (q, (days.map (fun e => muDayContrib display e q)).sum) ∈ out := by
  obtain ⟨totals, hfold, hout⟩ := fetch_mu_ok_inv display days out h
  constructor
  · intro p hp
    rw [hout] at hp
    have hp2 : p ∈ totals.filter (fun p => decide (p.2 > 0)) :=
      (pySortByTokensDesc_perm _).mem_iff.mp hp
    have hpos := (List.mem_filter.mp hp2).2
    simp only [decide_eq_true_eq] at hpos
    have hmem : p ∈ totals := List.mem_of_mem_filter hp2
    obtain ⟨hnd, hval⟩ := muFold_days display p.1 days [] totals hfold
    have hget : dget? totals p.1 = some p.2 :=
      dget?_of_mem_nodup totals p.1 p.2 (hnd (by simp)) hmem
    have : muVal totals p.1 = p.2 := by
      unfold muVal
      rw [hget]
      rfl
    have heq : p.2 = (days.map (fun e => muDayContrib display e p.1)).sum := by
      rw [← this, hval]
      unfold muVal
      simp [dget?]
    exact ⟨heq, hpos⟩
  · intro q hq
    obtain ⟨hnd, hval⟩ := muFold_days display q days [] totals hfold
    have hvq : muVal totals q = (days.map (fun e => muDayContrib display e q)).sum := by
      rw [hval]
      unfold muVal
      simp [dget?]
    have hsome : dget? totals q = some ((days.map (fun e => muDayContrib display e q)).sum) := by
      unfold muVal at hvq
      cases hx : dget? totals q with
      | none =>
        rw [hx] at hvq
        simp at hvq
        omega
      | some v =>
        rw [hx] at hvq
        simp at hvq
        rw [hvq]
    have hmem : (q, (days.map (fun e => muDayContrib display e q)).sum) ∈ totals :=
      dget?_mem totals q _ hsome
    have hfil : (q, (days.map (fun e => muDayContrib display e q)).sum)
        ∈ totals.filter (fun p => decide (p.2 > 0)) :=
      List.mem_filter.mpr ⟨hmem, by simpa using hq⟩
    rw [hout]
    exact (pySortByTokensDesc_perm _).mem_iff.mpr hfil

theorem C5_model_usage_totals_witness :
    ((okD [] (fetch_model_usage (fun n => n) (.ok ⟨c8Days⟩))).map Prod.fst = ["b", "a", "c"])
    ∧ ("b", (3 : ℤ)) ∉ okD [] (fetch_model_usage (fun n => n) (.ok ⟨c8Days⟩)) := by
  constructor
  · decide
  · intro hmem
    have := (C5_model_usage_totals (fun n => n) c8Days
      (okD [] (fetch_model_usage (fun n => n) (.ok ⟨c8Days⟩))) rfl).1 _ hmem
    revert this
    decide

def c6M1 : MetricsDict := { total_tokens := some 1 }

def c6Ent : MetricWithMetadata :=
  { metrics := some c6M1, api_key_breakdown := some [("K", { metrics := some c6M1 })] }

def c6Bd1 : BreakdownDict := { entities := some [("t1", c6Ent)] }

def c6Meta : KeyMetricWithMetadata := { metadata := some { key_alias := some "A" } }

def c6Bd2 : BreakdownDict :=
  { entities := some [("t1", c6Ent)], api_keys := some [("K", c6Meta)] }

def c6Days : List DayEntry := [{ breakdown := .val c6Bd1 }, { breakdown := .val c6Bd2 }]

/-- C6 counterexample: key `"K"` carries alias `"A"` in the second day's
top-level `api_keys` metadata, yet the aggregated entry for the key
records no alias — the alias-free first day fixed the entry's alias and
the later day's alias is discarded, refuting "present on at least one
day implies attached". -/
theorem C6_counterexample :
    aliasObs ((dget? (okD [] (fetch_total_tokens_per_team sTeams (.ok ⟨c6Days⟩)))
        "Team One").getD ⟨0, []⟩).api_keys "K" = some none
    ∧ truthyOpt (topLevelAlias c6Bd2 "K") = some "A" := by
  constructor <;> rfl

def c6KE1 : KeyEntry := { api_key := "K", key_alias := none, models := [] }

def c6KE2 : KeyEntry := { api_key := "K", key_alias := some "A", models := [] }

/-- C6 (amended): the alias attached to a key's aggregated entry is
decided by the FIRST day on which the key appears — merging a later
day's breakdown never changes the alias of a key already present in the
target (even when the source carries an alias and the target does not),
a key new to the target brings along its source alias, and the alias an
extraction attaches is exactly the truthy alias of that day's top-level
`api_keys` metadata. -/
theorem C6_alias_first_day (t s : List KeyEntry) (entity : MetricWithMetadata)
    (tlb : BreakdownDict) (k : String)
    (hnd : ((entity.api_key_breakdown.getD []).map Prod.fst).Nodup) :
    aliasObs (merge_breakdown t s) k
      = (if k ∈ keyNames t then aliasObs t k else aliasObs s k)
    ∧ ∀ e ∈ extract_breakdown entity tlb,
        e.key_alias = truthyOpt (topLevelAlias tlb e.api_key) := by
  refine ⟨aliasObs_merge_breakdown t s k, ?_⟩
  rw [extract_breakdown_eq entity tlb hnd]
  intro e he
  obtain ⟨q, hq, rfl⟩ := List.mem_map.mp he
  rw [extractKeyEntry_alias, extractKeyEntry_key]

theorem C6_alias_first_day_witness :
    (aliasObs (merge_breakdown [c6KE1] [c6KE2]) "K"
      = (if "K" ∈ keyNames [c6KE1] then aliasObs [c6KE1] "K" else aliasObs [c6KE2] "K")
    ∧ ∀ e ∈ extract_breakdown c6Ent c6Bd2,
        e.key_alias = truthyOpt (topLevelAlias c6Bd2 e.api_key))
    ∧ aliasObs (merge_breakdown [c6KE1] [c6KE2]) "K" = some none :=
  ⟨C6_alias_first_day [c6KE1] [c6KE2] c6Ent c6Bd2 "K" (by decide), by rfl⟩

def c2Day : DayEntry := { breakdown := .null }

/-- C2 counterexample: a day whose `breakdown` is an explicit JSON null
makes both the token-aggregation and the success-rate projectors raise
(`entry.get("breakdown", \x7b\x7d)` returns `None` and the chained
`.get` fails), refuting "no projector raises an error on malformed or
partially-absent input". -/
theorem C2_counterexample :
    fetch_total_tokens_per_team sTeams (.ok ⟨[c2Day]⟩) = .error attrErrNone
    ∧ fetch_team_success_rate_summary sTeams (.ok ⟨[c2Day]⟩) = .error attrErrNone :=
  ⟨rfl, rfl⟩

theorem mem_dset {α : Type} :
    ∀ (d : List (String × α)) (k : String) (z : α) (p : String × α),
      p ∈ dset d k z → p ∈ d ∨ p = (k, z)
  | [], _, _, p, hp => by
    simp only [dset, List.mem_singleton] at hp
    exact Or.inr hp
  | (a, b) :: t, k, z, p, hp => by
    simp only [dset] at hp
    by_cases h : a = k
    · rw [if_pos h] at hp
      rcases List.mem_cons.mp hp with h1 | h2
      · exact Or.inr (by rw [h1, h])
      · exact Or.inl (List.mem_cons_of_mem _ h2)
    · rw [if_neg h] at hp
      rcases List.mem_cons.mp hp with h1 | h2
      · exact Or.inl (by simp [h1])
      · rcases mem_dset t k z p h2 with h3 | h3
        · exact Or.inl (List.mem_cons_of_mem _ h3)
        · exact Or.inr h3

theorem values_foldl_dset {ι α : Type} (f : ι → String) (z : α) :
    ∀ (l : List ι) (d : List (String × α)), (∀ p ∈ d, p.2 = z) →
      ∀ p ∈ l.foldl (fun d t => dset d (f t) z) d, p.2 = z
  | [], _, hd, p, hp => hd p hp
  | t :: ts, d, hd, p, hp => by
    refine values_foldl_dset f z ts (dset d (f t) z) ?_ p hp
    intro q hq
    rcases mem_dset d (f t) z q hq with h1 | h1
    · exact hd q h1
    · rw [h1]

theorem srTeamStep_of_absent (teams : List Team)
    (ents : List (String × MetricWithMetadata)) (tm : List (String × SRCounters))
    (t : Team) (h : dget? ents t.team_id = none) :
    srTeamStep teams ents tm t = tm := by
  unfold srTeamStep
  rw [h]
  refine dupd_id _ ?_ tm _
  intro v
  cases v
  simp

theorem foldl_srTeamStep_nil (teams : List Team) :
    ∀ (l : List Team) (tm : List (String × SRCounters)),
      l.foldl (srTeamStep teams []) tm = tm
  | [], _ => rfl
  | t :: ts, tm => by
    rw [List.foldl_cons, srTeamStep_of_absent teams [] tm t rfl,
      foldl_srTeamStep_nil teams ts tm]

theorem dget?_taEntityStep (teams : List Team) (tlb : BreakdownDict)
    (td : List (String × TeamTotal)) (p : String × MetricWithMetadata) (n : String)
    (h : getTeamName teams p.1 ≠ n) :
    dget? (taEntityStep teams tlb td p) n = dget? td n := by
  unfold taEntityStep
  by_cases hx : (dget? td (getTeamName teams p.1)).isSome
  · rw [if_pos hx, dget?_dupd]
    have h' : ¬n = getTeamName teams p.1 := fun hh => h hh.symm
    rw [if_neg h']
  · rw [if_neg hx]

theorem dget?_foldl_taEntityStep (teams : List Team) (tlb : BreakdownDict) (n : String) :
    ∀ (ents : List (String × MetricWithMetadata)) (td : List (String × TeamTotal)),
      (∀ p ∈ ents, getTeamName teams p.1 ≠ n) →
      dget? (ents.foldl (taEntityStep teams tlb) td) n = dget? td n
  | [], _, _ => rfl
  | p :: ps, td, h => by
    rw [List.foldl_cons,
      dget?_foldl_taEntityStep teams tlb n ps _ (fun q hq => h q (by simp [hq])),
      dget?_taEntityStep teams tlb td p n (h p (by simp))]

/-- C2 (amended): absent data defaults to zero, but only along these
paths — (i) a day with no `breakdown` key leaves both accumulators
unchanged; (ii) a day whose breakdown dict is empty leaves both
accumulators unchanged; (iii) a requested team absent from a day's
entities keeps its success-rate counters at that step; (iv) in the
token-aggregation fold, a team name attributed to no entity of the day
keeps its accumulated record; (v) an empty document yields one record
per resolved team name with zero tokens and an empty key list.  (A day
with an explicit JSON-null `breakdown` instead raises.) -/
theorem C2_missing_data_defaults (teams : List Team) (entry : DayEntry)
    (tlb : BreakdownDict) (td : List (String × TeamTotal))
    (tm : List (String × SRCounters)) (ents : List (String × MetricWithMetadata))
    (t : Team) (n : String) :
    (entry.breakdown = .absent →
      taDayStep teams td entry = .ok td ∧ srDayStep teams tm entry = .ok tm)
    ∧ (entry.breakdown = .val {} →
      taDayStep teams td entry = .ok td ∧ srDayStep teams tm entry = .ok tm)
    ∧ (dget? ents t.team_id = none → srTeamStep teams ents tm t = tm)
    ∧ ((∀ p ∈ ents, getTeamName teams p.1 ≠ n) →
      dget? (ents.foldl (taEntityStep teams tlb) td) n = dget? td n)
    ∧ (fetch_total_tokens_per_team teams (.ok ⟨[]⟩) = .ok (taInit teams)
      ∧ ∀ p ∈ taInit teams, p.2 = (⟨0, []⟩ : TeamTotal)) := by
  refine ⟨?_, ?_, srTeamStep_of_absent teams ents tm t,
    dget?_foldl_taEntityStep teams tlb n ents td, rfl, ?_⟩
  · intro h
    unfold taDayStep srDayStep
    rw [h]
    exact ⟨rfl, by rw [foldl_srTeamStep_nil]⟩
  · intro h
    unfold taDayStep srDayStep
    rw [h]
    constructor
    · show Except.ok ((({} : BreakdownDict).entities.getD []).foldl (taEntityStep teams _) td)
        = Except.ok td
      rfl
    · show Except.ok (teams.foldl (srTeamStep teams (({} : BreakdownDict).entities.getD [])) tm)
        = Except.ok tm
      rw [show (({} : BreakdownDict).entities.getD []) = [] from rfl, foldl_srTeamStep_nil]
  · exact values_foldl_dset (fun t => getTeamName teams t.team_id) (⟨0, []⟩ : TeamTotal)
      teams [] (by intro p hp; cases hp)

theorem C2_missing_data_defaults_witness :
    (taDayStep sTeams (taInit sTeams) { breakdown := .absent } = .ok (taInit sTeams)
      ∧ srDayStep sTeams (srInit sTeams) { breakdown := .absent } = .ok (srInit sTeams))
    ∧ srTeamStep sTeams [] (srInit sTeams) ⟨"t1", some "Team One"⟩ = srInit sTeams :=
  ⟨(C2_missing_data_defaults sTeams { breakdown := .absent } {} (taInit sTeams)
      (srInit sTeams) [] ⟨"t1", some "Team One"⟩ "x").1 rfl,
   (C2_missing_data_defaults sTeams { breakdown := .absent } {} (taInit sTeams)
      (srInit sTeams) [] ⟨"t1", some "Team One"⟩ "x").2.2.1 rfl⟩
